import Mathlib

/-!
Shallow embedding of the slot-allocation engine of `server.command` from the
repository XRSec/car_music.

Courses are keyed by strings; each course holds a `songs` array whose
elements are `null` (an empty slot), a real song title, or the sentinel
string `'ALLOCATED'` that the batch planner writes into its working copy.
JavaScript objects are modelled as association lists whose keys are
pairwise distinct (a `Nodup` hypothesis where it matters),
`Object.keys(x).sort()` as a stable insertion sort of the key list, and
each `Math.floor(Math.random() * len)` draw as an arbitrary oracle value
reduced modulo `len`.  `JSON.parse(JSON.stringify(data))` is a deep copy
of plain JSON data, hence the identity on the modelled value.
-/

namespace CarMusic

/-- One element of a course's `songs` array: `null`, a real song title, or
the `'ALLOCATED'` sentinel used on the batch planner's working copy. -/
inductive Slot where
  | empty
  | song (title : String)
  | allocated
deriving DecidableEq, Repr

/-- A registry snapshot: a JavaScript object mapping course key to its
`songs` array, modelled as an association list. -/
abbrev Registry := List (String × List Slot)

/-- `Object.keys(data)` in the object's own (insertion) order. -/
def keys (data : Registry) : List String := data.map Prod.fst

/-- The comparison used by JavaScript's default `Array.prototype.sort()`
on strings: lexicographic on the code-unit sequences.  (Stated on
`String.data`, which carries the same order as `String`'s own `≤` but
reduces inside the kernel.) -/
def jsLe (a b : String) : Prop := a.data ≤ b.data

instance : DecidableRel jsLe := fun a b => inferInstanceAs (Decidable (a.data ≤ b.data))

instance : IsTotal String jsLe := ⟨fun a b => le_total a.data b.data⟩

instance : IsTrans String jsLe := ⟨fun _ _ _ => le_trans⟩

/-- `Object.keys(data).sort()`: the keys in lexicographic order. -/
def sortedKeys (data : Registry) : List String :=
  List.insertionSort jsLe (keys data)

/-- Property access `data[course]` on the object (keys are unique, so the
first matching entry is the entry). -/
def lookupSongs : Registry → String → Option (List Slot)
  | [], _ => none
  | kv :: rest, c => if kv.1 = c then some kv.2 else lookupSongs rest c

/-- `data[course].songs || []`. -/
def getSongs (data : Registry) (course : String) : List Slot :=
  (lookupSongs data course).getD []

/-- `dataCopy[course].songs[slot] = v`: update the entry of `course`. -/
def setSlot : Registry → String → Nat → Slot → Registry
  | [], _, _, _ => []
  | kv :: rest, c, i, v =>
    if kv.1 = c then (kv.1, kv.2.set i v) :: setSlot rest c i v
    else kv :: setSlot rest c i v

/-- `dataCopy[course].songs = songs` (the net effect of a sequence of
single-slot writes to one course inside one loop body). -/
def setSongs : Registry → String → List Slot → Registry
  | [], _, _ => []
  | kv :: rest, c, songs =>
    if kv.1 = c then (kv.1, songs) :: setSongs rest c songs
    else kv :: setSongs rest c songs

/-- `songs.filter(song => song !== null).length`. -/
def countNonNull (songs : List Slot) : Nat :=
  songs.countP fun s => !(s == Slot.empty)

/-- `songs.filter(song => song !== null && song !== 'ALLOCATED').length`. -/
def countReal (songs : List Slot) : Nat :=
  songs.countP fun s => !(s == Slot.empty) && !(s == Slot.allocated)

/-- `songs.indexOf(null)`, with `none` for `-1`. -/
def indexOfNull : List Slot → Option Nat
  | [] => none
  | s :: rest => if s == Slot.empty then some 0 else (indexOfNull rest).map (· + 1)

/-- `songs.map((song, i) => song === null ? i : null).filter(i => i !== null)`,
generalised over the index `i₀` of the first element. -/
def emptySlotsFrom (i₀ : Nat) : List Slot → List Nat
  | [] => []
  | s :: rest =>
    if s == Slot.empty then i₀ :: emptySlotsFrom (i₀ + 1) rest
    else emptySlotsFrom (i₀ + 1) rest

/-- The indices of the empty (`null`) slots of a `songs` array, ascending. -/
def emptySlots (songs : List Slot) : List Nat := emptySlotsFrom 0 songs

/-- The number of `null` entries of one `songs` array. -/
def countEmpty (songs : List Slot) : Nat := songs.countP (· == Slot.empty)

/-- The total number of `null` (empty) slots in a registry snapshot. -/
def emptyCount (data : Registry) : Nat :=
  (data.map fun kv => countEmpty kv.2).sum

/-- The loop body of `findAvailableCourse`: first course (in the given key
order) with an empty slot, together with that slot. -/
def findFirstEmpty (data : Registry) : List String → Option (String × Nat)
  | [] => none
  | c :: rest =>
    match indexOfNull (getSongs data c) with
    | some i => some (c, i)
    | none => findFirstEmpty data rest

/-- `findAvailableCourse(data)`: legacy first-fit over the sorted keys. -/
def findAvailableCourse (data : Registry) : Option (String × Nat) :=
  findFirstEmpty data (sortedKeys data)

/-- One entry of the `courseStats` array built by the round-robin finders:
occupied count (per the given counting rule), course key, empty-slot
indices.  `count` is `countNonNull` in `findAvailableCourseRoundRobin` and
`countReal` in `findAvailableCourseRoundRobinWithCopy`. -/
def courseStat (count : List Slot → Nat) (data : Registry) (c : String) :
    Nat × String × List Nat :=
  (count (getSongs data c), c, emptySlots (getSongs data c))

/-- `courses.map(...).filter(stat => stat.hasEmptySlot)`. -/
def courseStats (count : List Slot → Nat) (data : Registry) (courses : List String) :
    List (Nat × String × List Nat) :=
  (courses.map (courseStat count data)).filter fun st => !st.2.2.isEmpty

/-- Shared body of `findAvailableCourseRoundRobin` /
`...RoundRobinWithCopy`: build the stats, stable-sort ascending by
occupied count (`(a, b) => a.songCount - b.songCount`), take the first,
return its course and its lowest empty slot. -/
def roundRobinPick (count : List Slot → Nat) (data : Registry) (courses : List String) :
    Option (String × Nat) :=
  ((List.insertionSort (fun a b => a.1 ≤ b.1) (courseStats count data courses)).head?).map
    fun st => (st.2.1, st.2.2.headD 0)

/-- `findAvailableCourseRoundRobin(data, courses)`. -/
def findAvailableCourseRoundRobin (data : Registry) (courses : List String) :
    Option (String × Nat) :=
  roundRobinPick countNonNull data courses

/-- Loop body of `findAvailableCourseLeastSongsFirst` (and its `WithCopy`
variant, which differs only in the counting rule): the accumulator is
`(minSongs, selectedCourse, selectedSlot)`, `none` standing for
`minSongs = Infinity, selectedCourse = null`. -/
def lsfStep (count : List Slot → Nat) (data : Registry)
    (acc : Option (Nat × String × Nat)) (c : String) : Option (Nat × String × Nat) :=
  match indexOfNull (getSongs data c) with
  | none => acc
  | some i =>
    match acc with
    | none => some (count (getSongs data c), c, i)
    | some (m, c₀, s₀) =>
      if count (getSongs data c) < m then some (count (getSongs data c), c, i)
      else some (m, c₀, s₀)

/-- Shared body of `findAvailableCourseLeastSongsFirst` / `...WithCopy`. -/
def leastSongsPick (count : List Slot → Nat) (data : Registry) (courses : List String) :
    Option (String × Nat) :=
  (courses.foldl (lsfStep count data) none).map fun r => (r.2.1, r.2.2)

/-- `findAvailableCourseLeastSongsFirst(data, courses)`. -/
def findAvailableCourseLeastSongsFirst (data : Registry) (courses : List String) :
    Option (String × Nat) :=
  leastSongsPick countNonNull data courses

/-- The `availableCourses` list built by the random finders and by
`batchRandomAllocation`: every course with an empty slot, paired with its
lowest empty slot index. -/
def availableCourses (data : Registry) (courses : List String) : List (String × Nat) :=
  courses.filterMap fun c => (indexOfNull (getSongs data c)).map fun i => (c, i)

/-- `findAvailableCourseRandom(data, courses)` with the random draw
modelled by the oracle value `r` (the JS index is
`Math.floor(Math.random() * length)`, a uniform value in `[0, length)`;
`r % length` ranges over exactly those indices). -/
def findAvailableCourseRandom (r : Nat) (data : Registry) (courses : List String) :
    Option (String × Nat) :=
  (availableCourses data courses)[r % (availableCourses data courses).length]?

/-- `findAvailableCourseFair(data, strategy)`: dispatch on the strategy
string; an unrecognized string falls back to `findAvailableCourse`. -/
def findAvailableCourseFair (r : Nat) (data : Registry) (strategy : String) :
    Option (String × Nat) :=
  if strategy == "round_robin" then findAvailableCourseRoundRobin data (sortedKeys data)
  else if strategy == "least_songs_first" then
    findAvailableCourseLeastSongsFirst data (sortedKeys data)
  else if strategy == "random" then findAvailableCourseRandom r data (sortedKeys data)
  else findAvailableCourse data

/-- `findAvailableCourseRoundRobinWithCopy(dataCopy, courses)`: identical
to the plain version except that the occupied count excludes the
`'ALLOCATED'` sentinel, and selection uses the actual (`null`) empty
slots. -/
def findAvailableCourseRoundRobinWithCopy (data : Registry) (courses : List String) :
    Option (String × Nat) :=
  roundRobinPick countReal data courses

/-- `findAvailableCourseLeastSongsFirstWithCopy(dataCopy, courses)`. -/
def findAvailableCourseLeastSongsFirstWithCopy (data : Registry) (courses : List String) :
    Option (String × Nat) :=
  leastSongsPick countReal data courses

/-- `findAvailableCourseRandomWithCopy(dataCopy, courses)` (its body is
character-for-character the same as `findAvailableCourseRandom`). -/
def findAvailableCourseRandomWithCopy (r : Nat) (data : Registry) (courses : List String) :
    Option (String × Nat) :=
  findAvailableCourseRandom r data courses

/-- `findAvailableCourseFairWithCopy(dataCopy, strategy)`: an unrecognized
strategy string falls back to `findAvailableCourseLeastSongsFirstWithCopy`. -/
def findAvailableCourseFairWithCopy (r : Nat) (data : Registry) (strategy : String) :
    Option (String × Nat) :=
  if strategy == "round_robin" then
    findAvailableCourseRoundRobinWithCopy data (sortedKeys data)
  else if strategy == "least_songs_first" then
    findAvailableCourseLeastSongsFirstWithCopy data (sortedKeys data)
  else if strategy == "random" then findAvailableCourseRandomWithCopy r data (sortedKeys data)
  else findAvailableCourseLeastSongsFirstWithCopy data (sortedKeys data)

/-- Inner slot loop of `batchOriginalAllocation` for one course: walk the
`songs` array from index `idx`, with `budget` allocations still allowed
(`songCount - songIndex`); return the allocated indices, the updated
`songs` array, and the remaining budget. -/
def origInner (budget idx : Nat) : List Slot → List Nat × List Slot × Nat
  | [] => ([], [], budget)
  | s :: rest =>
    if budget = 0 then ([], s :: rest, 0)
    else if s == Slot.empty then
      let r := origInner (budget - 1) (idx + 1) rest
      (idx :: r.1, Slot.allocated :: r.2.1, r.2.2)
    else
      let r := origInner budget (idx + 1) rest
      (r.1, s :: r.2.1, r.2.2)

/-- Outer course loop of `batchOriginalAllocation`. -/
def origCourseLoop : Registry → Nat → List String → List (String × Nat) × Registry
  | data, _, [] => ([], data)
  | data, budget, c :: rest =>
    if budget = 0 then ([], data)
    else
      let r := origInner budget 0 (getSongs data c)
      let next := origCourseLoop (setSongs data c r.2.1) r.2.2 rest
      (r.1.map (fun i => (c, i)) ++ next.1, next.2)

/-- `batchOriginalAllocation(dataCopy, songCount, courses)`. -/
def batchOriginalAllocation (dataCopy : Registry) (songCount : Nat)
    (courses : List String) : List (String × Nat) :=
  (origCourseLoop dataCopy songCount courses).1

/-- The shared shape of the two `while (songIndex < songCount)` allocation
loops (`batchRandomAllocation` and phase 2 of `batchFairAllocation`):
`fuel` is `songCount - songIndex`, `i` counts the iterations (used to
index the random oracle); each round asks `pick` for a placement, breaks
when it returns `none`, otherwise records it and marks the slot
`'ALLOCATED'` in the working copy. -/
def pickLoop (pick : Nat → Registry → Option (String × Nat)) :
    Registry → Nat → Nat → List (String × Nat)
  | _, 0, _ => []
  | data, fuel + 1, i =>
    match pick i data with
    | none => []
    | some p => p :: pickLoop pick (setSlot data p.1 p.2 Slot.allocated) fuel (i + 1)

/-- `batchRandomAllocation(dataCopy, songCount, courses)` with oracle `g`. -/
def batchRandomAllocation (g : Nat → Nat) (dataCopy : Registry) (songCount : Nat)
    (courses : List String) : List (String × Nat) :=
  pickLoop
    (fun i d => (availableCourses d courses)[g i % (availableCourses d courses).length]?)
    dataCopy songCount 0

/-- Phase 1 of `batchFairAllocation`: walk the sorted course list once,
giving each course its first empty slot, until the budget
(`songCount - songIndex`) runs out; return the allocations, the updated
copy, and the remaining budget. -/
def seedLoop : Registry → Nat → List String → List (String × Nat) × Registry × Nat
  | data, budget, [] => ([], data, budget)
  | data, budget, c :: rest =>
    if budget = 0 then ([], data, 0)
    else
      match indexOfNull (getSongs data c) with
      | some i =>
        ((c, i) :: (seedLoop (setSlot data c i Slot.allocated) (budget - 1) rest).1,
          (seedLoop (setSlot data c i Slot.allocated) (budget - 1) rest).2)
      | none => seedLoop data budget rest

/-- `batchFairAllocation(dataCopy, songCount, strategy, courses)`. -/
def batchFairAllocation (g : Nat → Nat) (dataCopy : Registry) (songCount : Nat)
    (strategy : String) (courses : List String) : List (String × Nat) :=
  let coursesWithEmptySlots := courses.filter fun c =>
    (getSongs dataCopy c).contains Slot.empty
  let sortedCourses :=
    if strategy == "least_songs_first" then
      List.insertionSort
        (fun a b => countNonNull (getSongs dataCopy a) ≤ countNonNull (getSongs dataCopy b))
        coursesWithEmptySlots
    else
      List.insertionSort
        (fun a b => countNonNull (getSongs dataCopy a) ≤ countNonNull (getSongs dataCopy b))
        coursesWithEmptySlots
  let r := seedLoop dataCopy songCount sortedCourses
  r.1 ++ pickLoop (fun j d => findAvailableCourseFairWithCopy (g j) d strategy) r.2.1 r.2.2 0

/-- `JSON.parse(JSON.stringify(data))`: a deep copy of plain JSON data,
whose value equals the original. -/
def deepCopy (data : Registry) : Registry := data

/-- `batchAllocation(data, songCount, strategy)` with random oracle `g`. -/
def batchAllocation (g : Nat → Nat) (data : Registry) (songCount : Nat)
    (strategy : String) : List (String × Nat) :=
  let courses := sortedKeys data
  let dataCopy := deepCopy data
  if strategy == "original" then batchOriginalAllocation dataCopy songCount courses
  else if strategy == "random" then batchRandomAllocation g dataCopy songCount courses
  else batchFairAllocation g dataCopy songCount strategy courses

/-- `if (!stats[course]) stats[course] = 0; stats[course]++` on the
insertion-ordered histogram object of the analysis handler. -/
def addToStats (stats : List (String × Nat)) (c : String) : List (String × Nat) :=
  if stats.any fun kv => kv.1 == c then
    stats.map fun kv => if kv.1 = c then (kv.1, kv.2 + 1) else kv
  else stats ++ [(c, 1)]

/-- The per-course assignment histogram an `analyze-allocation-performance`
run builds from one strategy's plan (keys in first-appearance order). -/
def allocationStats (plan : List (String × Nat)) : List (String × Nat) :=
  plan.foldl (fun st p => addToStats st p.1) []

/-- `Object.values(stats)` (insertion order). -/
def courseCounts (stats : List (String × Nat)) : List Nat := stats.map Prod.snd

/-- The handler's `variance`: mean squared deviation of the per-course
counts from `avgSongsPerCourse = songCount / totalCourses` (note: the
requested count divided by the number of courses used, not the mean of
the counts).  Real-number idealisation of the JS float arithmetic. -/
noncomputable def fairnessVariance (counts : List Nat) (songCount : Nat) : ℝ :=
  ((counts.map fun c : Nat => ((c : ℝ) - (songCount : ℝ) / (counts.length : ℝ)) ^ 2).sum) /
    (counts.length : ℝ)

/-- The handler's `standardDeviation = Math.sqrt(variance)`. -/
noncomputable def standardDeviation (counts : List Nat) (songCount : Nat) : ℝ :=
  Real.sqrt (fairnessVariance counts songCount)

/-- The handler's `fairnessScore = 1 / (1 + standardDeviation)` (the
display rounding `toFixed(3)` is omitted in this idealisation). -/
noncomputable def fairnessScore (counts : List Nat) (songCount : Nat) : ℝ :=
  1 / (1 + standardDeviation counts songCount)

/-- The recommendation loop of the handler: fold over the evaluated
strategies in order with `bestScore = 0, bestStrategy = null`, replacing
the incumbent only on a strictly greater score. -/
noncomputable def pickBestLoop (scores : List (String × ℝ)) : ℝ × Option String :=
  scores.foldl (fun acc p => if acc.1 < p.2 then (p.2, some p.1) else acc) (0, none)

/-- `analysis.recommendation.strategy`. -/
noncomputable def recommendation (scores : List (String × ℝ)) : Option String :=
  (pickBestLoop scores).2

/-- The strategy/score pairs the handler evaluates, in its fixed order. -/
noncomputable def analyzeStrategies (g : Nat → Nat) (data : Registry) (songCount : Nat) :
    List (String × ℝ) :=
  ["round_robin", "least_songs_first", "random"].map fun s =>
    (s, fairnessScore (courseCounts (allocationStats (batchAllocation g data songCount s)))
      songCount)

/-- The spec's description of the original-mode plan: courses in sorted
key order, each contributing all its empty slots in ascending index
order, truncated to the requested count. -/
def canonicalOriginalPlan (data : Registry) (n : Nat) : List (String × Nat) :=
  (((sortedKeys data).map fun c => (emptySlots (getSongs data c)).map fun i => (c, i)).join).take n

/-- The courses holding at least one empty slot, in sorted key order
(the `coursesWithEmptySlots` list of `batchFairAllocation`). -/
def coursesWithEmpty (data : Registry) : List String :=
  (sortedKeys data).filter fun c => (getSongs data c).contains Slot.empty

/-- Strict lexicographic order on plan entries: earlier course key, or the
same course with a smaller slot index. -/
def slotLt (p q : String × Nat) : Prop := p.1 < q.1 ∨ (p.1 = q.1 ∧ p.2 < q.2)

/-- The scenario registry of the spec: courses `A`, `B` fully empty and
`C` with slot 0 occupied. -/
def scenarioRegistry : Registry :=
  [("A", [Slot.empty, Slot.empty]),
   ("B", [Slot.empty, Slot.empty]),
   ("C", [Slot.song "c0", Slot.empty])]

/-- A registry with a single fully-empty course. -/
def regA : Registry := [("A", [Slot.empty, Slot.empty])]

/-- Two fully-empty courses. -/
def regAB : Registry :=
  [("A", [Slot.empty, Slot.empty]), ("B", [Slot.empty, Slot.empty])]

/-- A registry with no empty slot anywhere. -/
def fullRegistry : Registry := [("A", [Slot.song "a1", Slot.song "a2"])]

/-! ### Basic facts about songs arrays -/

/-- The slot `songs.indexOf(null)` points at is indeed empty. -/
theorem indexOfNull_eq_some {songs : List Slot} {i : Nat}
    (h : indexOfNull songs = some i) : songs[i]? = some Slot.empty := by
  induction songs generalizing i with
  | nil => simp [indexOfNull] at h
  | cons s rest ih =>
    by_cases hs : s = Slot.empty
    · subst hs
      simp [indexOfNull] at h
      simp [← h]
    · simp [indexOfNull, hs] at h
      obtain ⟨j, hj, rfl⟩ := h
      simpa using ih hj

theorem indexOfNull_eq_none {songs : List Slot} :
    indexOfNull songs = none ↔ countEmpty songs = 0 := by
  induction songs with
  | nil => simp [indexOfNull, countEmpty]
  | cons s rest ih =>
    by_cases hs : s = Slot.empty
    · subst hs; simp [indexOfNull, countEmpty]
    · simp [indexOfNull, countEmpty, hs, List.countP_cons] at ih ⊢
      exact ih

theorem indexOfNull_isSome {songs : List Slot} :
    (indexOfNull songs).isSome ↔ 0 < countEmpty songs := by
  rcases h : indexOfNull songs with _ | i
  · simp [indexOfNull_eq_none.mp h]
  · simp only [Option.isSome_some, true_iff]
    rcases Nat.eq_zero_or_pos (countEmpty songs) with h0 | h0
    · rw [indexOfNull_eq_none.mpr h0] at h; cases h
    · exact h0

theorem contains_empty_iff {songs : List Slot} :
    songs.contains Slot.empty = true ↔ 0 < countEmpty songs := by
  rw [← indexOfNull_isSome]
  induction songs with
  | nil => simp [indexOfNull]
  | cons s rest ih =>
    by_cases hs : s = Slot.empty
    · subst hs; simp [indexOfNull]
    · simpa [indexOfNull, hs, List.contains_cons, Ne.symm hs] using ih

theorem emptySlotsFrom_head? (i₀ : Nat) (songs : List Slot) :
    (emptySlotsFrom i₀ songs).head? = (indexOfNull songs).map (i₀ + ·) := by
  induction songs generalizing i₀ with
  | nil => simp [emptySlotsFrom, indexOfNull]
  | cons s rest ih =>
    by_cases hs : s = Slot.empty
    · subst hs; simp [emptySlotsFrom, indexOfNull]
    · have := ih (i₀ + 1)
      simp only [emptySlotsFrom, indexOfNull, hs]
      simp only [beq_iff_eq, hs, if_false, this, Option.map_map]
      rcases indexOfNull rest with _ | j
      · simp
      · simp [Function.comp]
        omega

theorem emptySlots_head? (songs : List Slot) :
    (emptySlots songs).head? = indexOfNull songs := by
  rw [emptySlots, emptySlotsFrom_head?]
  rcases indexOfNull songs with _ | j <;> simp

theorem length_emptySlotsFrom (i₀ : Nat) (songs : List Slot) :
    (emptySlotsFrom i₀ songs).length = countEmpty songs := by
  induction songs generalizing i₀ with
  | nil => simp [emptySlotsFrom, countEmpty]
  | cons s rest ih =>
    by_cases hs : s = Slot.empty
    · subst hs; simp [emptySlotsFrom, countEmpty, List.countP_cons, ih]
    · simp [emptySlotsFrom, countEmpty, List.countP_cons, hs, ih]

theorem mem_emptySlotsFrom {i₀ j : Nat} {songs : List Slot} :
    j ∈ emptySlotsFrom i₀ songs ↔ ∃ k, j = i₀ + k ∧ songs[k]? = some Slot.empty := by
  induction songs generalizing i₀ with
  | nil => simp [emptySlotsFrom]
  | cons s rest ih =>
    by_cases hs : s = Slot.empty
    · subst hs
      simp only [emptySlotsFrom, beq_self_eq_true, if_true, List.mem_cons, ih]
      constructor
      · rintro (rfl | ⟨k, rfl, hk⟩)
        · exact ⟨0, by simp⟩
        · exact ⟨k + 1, by omega, by simpa using hk⟩
      · rintro ⟨k, rfl, hk⟩
        rcases k with _ | k
        · exact Or.inl (by omega)
        · exact Or.inr ⟨k, by omega, by simpa using hk⟩
    · simp only [emptySlotsFrom, beq_iff_eq, hs, if_false, ih]
      constructor
      · rintro ⟨k, rfl, hk⟩
        exact ⟨k + 1, by omega, by simpa using hk⟩
      · rintro ⟨k, rfl, hk⟩
        rcases k with _ | k
        · simp at hk; exact absurd hk hs
        · exact ⟨k, by omega, by simpa using hk⟩

theorem mem_emptySlots {j : Nat} {songs : List Slot} :
    j ∈ emptySlots songs ↔ songs[j]? = some Slot.empty := by
  rw [emptySlots, mem_emptySlotsFrom]
  constructor
  · rintro ⟨k, rfl, hk⟩; simpa using hk
  · intro h; exact ⟨j, by omega, h⟩

theorem emptySlotsFrom_pairwise (i₀ : Nat) (songs : List Slot) :
    (emptySlotsFrom i₀ songs).Pairwise (· < ·) := by
  induction songs generalizing i₀ with
  | nil => simp [emptySlotsFrom]
  | cons s rest ih =>
    have hge : ∀ j ∈ emptySlotsFrom (i₀ + 1) rest, i₀ + 1 ≤ j := by
      intro j hj
      obtain ⟨k, rfl, -⟩ := mem_emptySlotsFrom.mp hj
      omega
    by_cases hs : s = Slot.empty
    · subst hs
      simp only [emptySlotsFrom, beq_self_eq_true, if_true]
      exact List.Pairwise.cons (fun j hj => by have := hge j hj; omega) (ih (i₀ + 1))
    · simpa [emptySlotsFrom, hs] using ih (i₀ + 1)

theorem emptySlots_eq_nil {songs : List Slot} :
    emptySlots songs = [] ↔ indexOfNull songs = none := by
  constructor
  · intro h
    have := emptySlots_head? songs
    rw [h] at this
    simpa using this.symm
  · intro h
    have hl := length_emptySlotsFrom 0 songs
    have := indexOfNull_eq_none.mp h
    rw [this] at hl
    exact List.length_eq_zero.mp hl

/-- `countEmpty` drops by one when an empty slot is overwritten with a
non-empty value. -/
theorem countEmpty_set {songs : List Slot} {i : Nat}
    (h : songs[i]? = some Slot.empty) :
    countEmpty (songs.set i Slot.allocated) + 1 = countEmpty songs := by
  induction songs generalizing i with
  | nil => simp at h
  | cons s rest ih =>
    rcases i with _ | i
    · simp at h
      subst h
      simp [countEmpty, List.countP_cons]
    · simp at h
      have := ih h
      simp [countEmpty, List.countP_cons, List.set] at this ⊢
      omega

/-! ### Basic facts about the registry operations -/

theorem keys_setSlot (data : Registry) (c : String) (i : Nat) (v : Slot) :
    keys (setSlot data c i v) = keys data := by
  induction data with
  | nil => rfl
  | cons kv rest ih =>
    by_cases h : kv.1 = c <;> simp [setSlot, keys, h] <;> simpa [keys] using ih

theorem keys_setSongs (data : Registry) (c : String) (songs : List Slot) :
    keys (setSongs data c songs) = keys data := by
  induction data with
  | nil => rfl
  | cons kv rest ih =>
    by_cases h : kv.1 = c <;> simp [setSongs, keys, h] <;> simpa [keys] using ih

theorem lookupSongs_setSlot (data : Registry) (c c' : String) (i : Nat) (v : Slot) :
    lookupSongs (setSlot data c i v) c' =
      if c' = c then (lookupSongs data c').map (fun songs => songs.set i v)
      else lookupSongs data c' := by
  induction data with
  | nil => simp only [setSlot, lookupSongs]; split <;> simp
  | cons kv rest ih =>
    simp only [setSlot]
    by_cases hk : kv.1 = c
    · rw [if_pos hk]
      by_cases hq : kv.1 = c'
      · have hcc : c' = c := by rw [← hq, hk]
        simp [lookupSongs, hq, hcc]
      · have hcc : ¬c' = c := fun h => hq (by rw [hk, h])
        simp [lookupSongs, hq, hcc, ih]
    · rw [if_neg hk]
      by_cases hq : kv.1 = c'
      · have hcc : ¬c' = c := fun h => hk (by rw [hq, h])
        simp [lookupSongs, hq, hcc]
      · simp [lookupSongs, hq, ih]

theorem getSongs_setSlot (data : Registry) (c c' : String) (i : Nat) (v : Slot) :
    getSongs (setSlot data c i v) c' =
      if c' = c then (getSongs data c').set i v else getSongs data c' := by
  simp only [getSongs, lookupSongs_setSlot]
  split
  · rcases lookupSongs data c' with _ | songs <;> simp
  · rfl

theorem getSongs_setSlot_ne (data : Registry) {c c' : String} (i : Nat) (v : Slot)
    (h : c' ≠ c) : getSongs (setSlot data c i v) c' = getSongs data c' := by
  rw [getSongs_setSlot, if_neg h]

theorem lookupSongs_setSongs (data : Registry) (c c' : String) (songs : List Slot) :
    lookupSongs (setSongs data c songs) c' =
      if c' = c then (lookupSongs data c').map (fun _ => songs)
      else lookupSongs data c' := by
  induction data with
  | nil => simp only [setSongs, lookupSongs]; split <;> simp
  | cons kv rest ih =>
    simp only [setSongs]
    by_cases hk : kv.1 = c
    · rw [if_pos hk]
      by_cases hq : kv.1 = c'
      · have hcc : c' = c := by rw [← hq, hk]
        simp [lookupSongs, hq, hcc]
      · have hcc : ¬c' = c := fun h => hq (by rw [hk, h])
        simp [lookupSongs, hq, hcc, ih]
    · rw [if_neg hk]
      by_cases hq : kv.1 = c'
      · have hcc : ¬c' = c := fun h => hk (by rw [hq, h])
        simp [lookupSongs, hq, hcc]
      · simp [lookupSongs, hq, ih]

theorem getSongs_setSongs_ne (data : Registry) {c c' : String} (songs : List Slot)
    (h : c' ≠ c) : getSongs (setSongs data c songs) c' = getSongs data c' := by
  simp [getSongs, lookupSongs_setSongs, h]

/-- With unique keys, `lookupSongs` finds exactly the entry's value. -/
theorem lookupSongs_eq_of_mem {data : Registry} {c : String} {songs : List Slot}
    (hnd : (keys data).Nodup) (hmem : (c, songs) ∈ data) :
    lookupSongs data c = some songs := by
  induction data with
  | nil => cases hmem
  | cons kv rest ih =>
    simp only [keys, List.map_cons, List.nodup_cons] at hnd
    rcases List.mem_cons.mp hmem with rfl | hmem'
    · simp [lookupSongs]
    · have hne : kv.1 ≠ c := by
        intro h
        exact hnd.1 (h ▸ (List.mem_map_of_mem Prod.fst hmem'))
      simp [lookupSongs, hne, ih hnd.2 hmem']

theorem mem_of_lookupSongs {data : Registry} {c : String} {songs : List Slot}
    (h : lookupSongs data c = some songs) : (c, songs) ∈ data := by
  induction data with
  | nil => cases h
  | cons kv rest ih =>
    by_cases hk : kv.1 = c
    · simp only [lookupSongs, if_pos hk] at h
      cases h
      subst hk
      exact List.mem_cons_self _ _
    · simp only [lookupSongs, if_neg hk] at h
      exact List.mem_cons_of_mem _ (ih h)

/-! ### The occupancy predicate and how the planner's writes move it -/

/-- Slot `s` of `course` is currently `null`. -/
def SlotEmpty (data : Registry) (c : String) (s : Nat) : Prop :=
  (getSongs data c)[s]? = some Slot.empty

theorem slotEmpty_of_indexOfNull {data : Registry} {c : String} {i : Nat}
    (h : indexOfNull (getSongs data c) = some i) : SlotEmpty data c i :=
  indexOfNull_eq_some h

/-- Marking any slot `'ALLOCATED'` never turns a non-empty slot empty. -/
theorem not_slotEmpty_setSlot {data : Registry} {c c' : String} {s s' : Nat}
    (h : ¬SlotEmpty data c s) :
    ¬SlotEmpty (setSlot data c' s' Slot.allocated) c s := by
  unfold SlotEmpty at *
  rw [getSongs_setSlot]
  split
  · by_cases hss : s' = s
    · subst hss
      rcases Nat.lt_or_ge s' (getSongs data c).length with hlt | hge
      · rw [List.getElem?_set_eq_of_lt _ hlt]
        simp
      · rw [List.set_eq_of_length_le hge]
        exact h
    · rw [List.getElem?_set_ne hss]
      exact h
  · exact h

/-- Marking an empty slot `'ALLOCATED'` makes it non-empty. -/
theorem not_slotEmpty_setSlot_self {data : Registry} {c : String} {s : Nat}
    (h : SlotEmpty data c s) :
    ¬SlotEmpty (setSlot data c s Slot.allocated) c s := by
  unfold SlotEmpty at h ⊢
  have hlt : s < (getSongs data c).length := by
    by_contra hge
    rw [List.getElem?_eq_none (Nat.le_of_not_lt hge)] at h
    cases h
  rw [getSongs_setSlot, if_pos rfl, List.getElem?_set_eq_of_lt _ hlt]
  simp

/-- Setting a slot of an absent course is a no-op. -/
theorem setSlot_of_lookupSongs_none {data : Registry} {c : String}
    (h : lookupSongs data c = none) (s : Nat) (v : Slot) :
    setSlot data c s v = data := by
  induction data with
  | nil => rfl
  | cons kv rest ih =>
    simp only [lookupSongs] at h
    by_cases hk : kv.1 = c
    · rw [if_pos hk] at h; cases h
    · rw [if_neg hk] at h
      rw [setSlot, if_neg hk, ih h]

/-- Marking an empty slot `'ALLOCATED'` lowers the global empty count by
exactly one (keys unique). -/
theorem emptyCount_setSlot {data : Registry} {c : String} {s : Nat}
    (hnd : (keys data).Nodup) (h : SlotEmpty data c s) :
    emptyCount (setSlot data c s Slot.allocated) + 1 = emptyCount data := by
  unfold SlotEmpty getSongs at h
  induction data with
  | nil => simp [lookupSongs] at h
  | cons kv rest ih =>
    simp only [keys, List.map_cons, List.nodup_cons] at hnd
    by_cases hk : kv.1 = c
    · have hlook : lookupSongs rest c = none := by
        rcases hl : lookupSongs rest c with _ | songs
        · rfl
        · exact absurd (hk ▸ List.mem_map_of_mem Prod.fst (mem_of_lookupSongs hl)) hnd.1
      simp only [lookupSongs, if_pos hk, Option.getD_some] at h
      simp only [setSlot, if_pos hk, emptyCount, List.map_cons, List.sum_cons,
        setSlot_of_lookupSongs_none hlook]
      have := countEmpty_set h
      omega
    · simp only [lookupSongs, if_neg hk] at h
      simp only [setSlot, if_neg hk, emptyCount, List.map_cons, List.sum_cons]
      have := ih hnd.2 h
      simp only [emptyCount] at this
      omega

/-- An empty slot anywhere makes the global empty count positive. -/
theorem emptyCount_pos {data : Registry} {c : String} {s : Nat}
    (h : SlotEmpty data c s) : 0 < emptyCount data := by
  unfold SlotEmpty getSongs at h
  rcases hl : lookupSongs data c with _ | songs
  · rw [hl] at h; simp at h
  · rw [hl, Option.getD_some] at h
    have hmem := mem_of_lookupSongs hl
    have hpos : 0 < countEmpty songs :=
      List.countP_pos_iff.mpr ⟨Slot.empty, List.getElem?_mem h, by simp⟩
    have : countEmpty songs ≤ emptyCount data :=
      List.le_sum_of_mem (List.mem_map_of_mem (fun kv => countEmpty kv.2) hmem)
    omega

/-- If no slot is empty, every course scan comes back empty. -/
theorem indexOfNull_of_emptyCount_zero {data : Registry}
    (h : emptyCount data = 0) (c : String) : indexOfNull (getSongs data c) = none := by
  rcases hl : lookupSongs data c with _ | songs
  · simp [getSongs, hl, indexOfNull]
  · have hmem := mem_of_lookupSongs hl
    have : countEmpty songs = 0 := by
      have := List.sum_eq_zero_iff.mp h (countEmpty songs)
        (List.mem_map_of_mem (fun kv => countEmpty kv.2) hmem)
      exact this
    rw [getSongs, hl, Option.getD_some]
    exact indexOfNull_eq_none.mpr this

/-- With unique keys, a positive empty count exhibits a course (in the key
list) with an empty slot. -/
theorem exists_empty_of_emptyCount_pos {data : Registry}
    (hnd : (keys data).Nodup) (h : 0 < emptyCount data) :
    ∃ c ∈ keys data, (indexOfNull (getSongs data c)).isSome := by
  have : ∃ n ∈ data.map fun kv => countEmpty kv.2, 0 < n := by
    by_contra hall
    push_neg at hall
    have : emptyCount data = 0 := List.sum_eq_zero_iff.mpr fun x hx => by
      have := hall x hx; omega
    omega
  obtain ⟨n, hn, hpos⟩ := this
  obtain ⟨kv, hkv, rfl⟩ := List.mem_map.mp hn
  refine ⟨kv.1, List.mem_map_of_mem Prod.fst hkv, ?_⟩
  have hl : lookupSongs data kv.1 = some kv.2 := lookupSongs_eq_of_mem hnd hkv
  rw [getSongs, hl, Option.getD_some]
  exact indexOfNull_isSome.mpr hpos

/-! ### Sorted keys -/

theorem sortedKeys_perm (data : Registry) : List.Perm (sortedKeys data) (keys data) :=
  List.perm_insertionSort jsLe (keys data)

theorem mem_sortedKeys {data : Registry} {c : String} :
    c ∈ sortedKeys data ↔ c ∈ keys data :=
  (sortedKeys_perm data).mem_iff

theorem sortedKeys_nodup {data : Registry} (hnd : (keys data).Nodup) :
    (sortedKeys data).Nodup :=
  (sortedKeys_perm data).nodup_iff.mpr hnd

theorem sortedKeys_sorted (data : Registry) : (sortedKeys data).Sorted jsLe :=
  List.sorted_insertionSort jsLe (keys data)

/-- `setSlot` leaves `sortedKeys` unchanged. -/
theorem sortedKeys_setSlot (data : Registry) (c : String) (i : Nat) (v : Slot) :
    sortedKeys (setSlot data c i v) = sortedKeys data := by
  unfold sortedKeys
  rw [keys_setSlot]

/-! ### The first-minimum selector

The head of a stable ascending sort (what the JS `sort` + `[0]` of the
round-robin finders computes) and the left-to-right strict-minimum scan
(what the least-songs-first loop computes) both select the earliest
element attaining the minimal key. -/

/-- The earliest element of `l` attaining the minimal `key`. -/
def firstMinBy {α : Type*} (key : α → Nat) : List α → Option α
  | [] => none
  | a :: l =>
    match firstMinBy key l with
    | none => some a
    | some b => if key b < key a then some b else some a

theorem firstMinBy_eq_none {α : Type*} (key : α → Nat) (l : List α) :
    firstMinBy key l = none ↔ l = [] := by
  cases l with
  | nil => simp [firstMinBy]
  | cons a l =>
    simp only [firstMinBy]
    rcases firstMinBy key l with _ | b <;> simp
    split <;> simp

theorem head?_insertionSort_key {α : Type*} (key : α → Nat) (l : List α) :
    (List.insertionSort (fun a b => key a ≤ key b) l).head? = firstMinBy key l := by
  induction l with
  | nil => rfl
  | cons a l ih =>
    rw [List.insertionSort]
    rcases h : List.insertionSort (fun a b => key a ≤ key b) l with _ | ⟨b, t⟩
    · have hl : l = [] := by
        have hp := List.perm_insertionSort (fun a b => key a ≤ key b) l
        rw [h] at hp
        exact hp.symm.eq_nil
      subst hl
      rfl
    · rw [h] at ih
      have ih' : firstMinBy key l = some b := ih.symm
      simp only [firstMinBy, ih']
      by_cases hab : key a ≤ key b
      · rw [List.orderedInsert, if_pos hab]
        simp [Nat.not_lt.mpr hab]
      · rw [List.orderedInsert, if_neg hab]
        simp [Nat.lt_of_not_le hab]

theorem firstMinBy_mem {α : Type*} {key : α → Nat} {l : List α} {b : α}
    (h : firstMinBy key l = some b) : b ∈ l := by
  induction l generalizing b with
  | nil => cases h
  | cons a l ih =>
    rcases hl : firstMinBy key l with _ | b'
    · simp only [firstMinBy, hl] at h
      cases h
      exact List.mem_cons_self _ _
    · simp only [firstMinBy, hl] at h
      by_cases hlt : key b' < key a
      · rw [if_pos hlt] at h
        cases h
        exact List.mem_cons_of_mem _ (ih hl)
      · rw [if_neg hlt] at h
        cases h
        exact List.mem_cons_self _ _

/-- The selected element splits the list into strictly-larger elements
before it and at-least-as-large elements after it. -/
theorem firstMinBy_spec {α : Type*} {key : α → Nat} {l : List α} {b : α}
    (h : firstMinBy key l = some b) :
    ∃ l₁ l₂, l = l₁ ++ b :: l₂ ∧ (∀ a ∈ l₁, key b < key a) ∧ (∀ a ∈ l₂, key b ≤ key a) := by
  induction l generalizing b with
  | nil => cases h
  | cons a l ih =>
    rcases hl : firstMinBy key l with _ | b'
    · simp only [firstMinBy, hl] at h
      cases h
      refine ⟨[], l, rfl, by simp, fun x hx => ?_⟩
      rw [(firstMinBy_eq_none key l).mp hl] at hx
      cases hx
    · simp only [firstMinBy, hl] at h
      by_cases hlt : key b' < key a
      · rw [if_pos hlt] at h
        cases h
        obtain ⟨l₁, l₂, rfl, h₁, h₂⟩ := ih hl
        refine ⟨a :: l₁, l₂, rfl, fun x hx => ?_, h₂⟩
        rcases List.mem_cons.mp hx with rfl | hx
        · exact hlt
        · exact h₁ x hx
      · rw [if_neg hlt] at h
        cases h
        have hba : key a ≤ key b' := Nat.le_of_not_lt hlt
        obtain ⟨l₁, l₂, heq, h₁, h₂⟩ := ih hl
        refine ⟨[], l, rfl, by simp, fun x hx => ?_⟩
        rw [heq] at hx
        rcases List.mem_append.mp hx with hx | hx
        · exact Nat.le_of_lt (Nat.lt_of_le_of_lt hba (h₁ x hx))
        · rcases List.mem_cons.mp hx with rfl | hx
          · exact hba
          · exact Nat.le_trans hba (h₂ x hx)

theorem firstMinBy_map {α β : Type*} (key₁ : α → Nat) (key₂ : β → Nat) (f : α → β)
    (hf : ∀ a, key₂ (f a) = key₁ a) (l : List α) :
    firstMinBy key₂ (l.map f) = (firstMinBy key₁ l).map f := by
  induction l with
  | nil => rfl
  | cons a l ih =>
    rcases hl : firstMinBy key₁ l with _ | b
    · simp [firstMinBy, ih, hl]
    · simp only [List.map_cons, firstMinBy, ih, hl, Option.map_some']
      rw [hf, hf]
      split_ifs <;> simp

/-- The candidate triples `(occupiedCount, course, firstEmptySlot)` the
least-songs-first loop effectively scans. -/
def lsfTriples (count : List Slot → Nat) (data : Registry) (courses : List String) :
    List (Nat × String × Nat) :=
  courses.filterMap fun c =>
    (indexOfNull (getSongs data c)).map fun i => (count (getSongs data c), c, i)

/-- Merging an accumulator state with the best of the remaining scan. -/
def combineMin (acc r : Option (Nat × String × Nat)) : Option (Nat × String × Nat) :=
  match acc, r with
  | none, r => r
  | some a, none => some a
  | some a, some b => if b.1 < a.1 then some b else some a

theorem foldl_lsfStep (count : List Slot → Nat) (data : Registry) :
    ∀ (courses : List String) (acc : Option (Nat × String × Nat)),
      courses.foldl (lsfStep count data) acc =
        combineMin acc (firstMinBy (fun t => t.1) (lsfTriples count data courses)) := by
  intro courses
  induction courses with
  | nil => intro acc; cases acc <;> rfl
  | cons c rest ih =>
    intro acc
    rw [List.foldl_cons, ih]
    rcases h : indexOfNull (getSongs data c) with _ | i
    · have hstep : lsfStep count data acc c = acc := by
        unfold lsfStep
        rw [h]
      have htr : lsfTriples count data (c :: rest) = lsfTriples count data rest := by
        simp [lsfTriples, List.filterMap_cons, h]
      rw [hstep, htr]
    · have htr : lsfTriples count data (c :: rest) =
          (count (getSongs data c), c, i) :: lsfTriples count data rest := by
        simp [lsfTriples, List.filterMap_cons, h]
      rw [htr]
      rcases hfm : firstMinBy (fun t : Nat × String × Nat => t.1) (lsfTriples count data rest)
        with _ | b
      · rcases acc with _ | a
        · simp [lsfStep, h, firstMinBy, hfm, combineMin]
        · simp only [lsfStep, h, firstMinBy, hfm, combineMin]
          split_ifs <;> rfl
      · rcases acc with _ | a
        · simp [lsfStep, h, firstMinBy, hfm, combineMin]
        · by_cases h1 : count (getSongs data c) < a.1 <;>
            by_cases h2 : b.1 < count (getSongs data c) <;>
              by_cases h3 : b.1 < a.1 <;>
                simp [lsfStep, h, firstMinBy, hfm, combineMin, h1, h2, h3] <;>
                  first | rfl | (exfalso; omega)

/-- The stats array of the round-robin finders carries the same
information as the triples the least-songs-first scan works through. -/
theorem courseStats_map_eq (count : List Slot → Nat) (data : Registry)
    (courses : List String) :
    (courseStats count data courses).map (fun st => (st.1, st.2.1, st.2.2.headD 0)) =
      lsfTriples count data courses := by
  induction courses with
  | nil => rfl
  | cons c rest ih =>
    simp only [courseStats, List.map_cons, List.filter_cons] at ih ⊢
    rcases h : indexOfNull (getSongs data c) with _ | i
    · have he : emptySlots (getSongs data c) = [] := emptySlots_eq_nil.mpr h
      simpa [courseStat, he, lsfTriples, List.filterMap_cons, h] using ih
    · have hh : (emptySlots (getSongs data c)).head? = some i := by
        rw [emptySlots_head?, h]
      rcases hc : emptySlots (getSongs data c) with _ | ⟨x, xs⟩
      · rw [hc] at hh; cases hh
      · rw [hc] at hh
        have hx : x = i := by cases hh; rfl
        subst hx
        simp only [courseStat, hc, List.isEmpty_cons, Bool.not_false, if_true,
          List.map_cons, lsfTriples, List.filterMap_cons, h, Option.map_some']
        simp only [lsfTriples] at ih
        rw [ih]
        rfl

/-- The two fair single-call selectors pick the same pair: the head of the
stable count-sort equals the result of the strict-minimum scan. -/
theorem roundRobinPick_eq_leastSongsPick (count : List Slot → Nat) (data : Registry)
    (courses : List String) :
    roundRobinPick count data courses = leastSongsPick count data courses := by
  unfold roundRobinPick leastSongsPick
  rw [foldl_lsfStep]
  have hsort := head?_insertionSort_key (fun st : Nat × String × List Nat => st.1)
    (courseStats count data courses)
  rw [hsort]
  have hmap := firstMinBy_map (fun st : Nat × String × List Nat => st.1)
    (fun t : Nat × String × Nat => t.1)
    (fun st => (st.1, st.2.1, st.2.2.headD 0)) (fun _ => rfl)
    (courseStats count data courses)
  rw [courseStats_map_eq] at hmap
  rw [hmap]
  rcases firstMinBy (fun st : Nat × String × List Nat => st.1)
    (courseStats count data courses) with _ | st <;> rfl

theorem findAvailableCourseRoundRobin_eq_least (data : Registry) (courses : List String) :
    findAvailableCourseRoundRobin data courses =
      findAvailableCourseLeastSongsFirst data courses :=
  roundRobinPick_eq_leastSongsPick countNonNull data courses

theorem withCopy_roundRobin_eq_least (data : Registry) (courses : List String) :
    findAvailableCourseRoundRobinWithCopy data courses =
      findAvailableCourseLeastSongsFirstWithCopy data courses :=
  roundRobinPick_eq_leastSongsPick countReal data courses

/-- Closed form of the strict-minimum scan. -/
theorem leastSongsPick_eq (count : List Slot → Nat) (data : Registry)
    (courses : List String) :
    leastSongsPick count data courses =
      (firstMinBy (fun t => t.1) (lsfTriples count data courses)).map
        fun r => (r.2.1, r.2.2) := by
  unfold leastSongsPick
  rw [foldl_lsfStep]
  rfl

theorem mem_lsfTriples {count : List Slot → Nat} {data : Registry}
    {courses : List String} {t : Nat × String × Nat} :
    t ∈ lsfTriples count data courses ↔
      t.2.1 ∈ courses ∧ indexOfNull (getSongs data t.2.1) = some t.2.2 ∧
        t.1 = count (getSongs data t.2.1) := by
  unfold lsfTriples
  rw [List.mem_filterMap]
  constructor
  · rintro ⟨c, hc, hf⟩
    rcases h : indexOfNull (getSongs data c) with _ | i
    · rw [h] at hf; cases hf
    · rw [h] at hf
      cases hf
      exact ⟨hc, h, rfl⟩
  · rintro ⟨hc, h, hk⟩
    refine ⟨t.2.1, hc, ?_⟩
    rw [h, Option.map_some']
    obtain ⟨k, c, i⟩ := t
    simp only at hk h ⊢
    rw [hk]

theorem lsfTriples_map_course (count : List Slot → Nat) (data : Registry)
    (courses : List String) :
    (lsfTriples count data courses).map (fun t => t.2.1) =
      courses.filter fun c => (indexOfNull (getSongs data c)).isSome := by
  induction courses with
  | nil => rfl
  | cons c rest ih =>
    simp only [lsfTriples, List.filterMap_cons, List.filter_cons] at ih ⊢
    rcases h : indexOfNull (getSongs data c) with _ | i
    · simpa [h] using ih
    · simpa [h] using ih

/-! ### Invariants of the provisional-allocation loops -/

/-- A pick family is sound when every placement it proposes names a slot
that is empty in the state it was asked about. -/
def PickSound (pick : Nat → Registry → Option (String × Nat)) : Prop :=
  ∀ i d c s, pick i d = some (c, s) → SlotEmpty d c s

/-- A pick family is complete when it proposes a placement whenever the
(state of unchanged key set) still has an empty slot somewhere. -/
def PickComplete (K : List String) (pick : Nat → Registry → Option (String × Nat)) : Prop :=
  ∀ i d, keys d = K → 0 < emptyCount d → (pick i d).isSome

theorem pickLoop_length_le {pick : Nat → Registry → Option (String × Nat)}
    (hs : PickSound pick) :
    ∀ (fuel : Nat) (d : Registry) (i : Nat), (keys d).Nodup →
      (pickLoop pick d fuel i).length ≤ emptyCount d := by
  intro fuel
  induction fuel with
  | zero => intro d i _; simp [pickLoop]
  | succ n ih =>
    intro d i hnd
    rcases hp : pick i d with _ | p
    · simp [pickLoop, hp]
    · obtain ⟨c, s⟩ := p
      have hse := hs i d c s hp
      have hdec := emptyCount_setSlot hnd hse
      have hnd' : (keys (setSlot d c s Slot.allocated)).Nodup := by
        rw [keys_setSlot]; exact hnd
      have hrec := ih (setSlot d c s Slot.allocated) (i + 1) hnd'
      simp only [pickLoop, hp, List.length_cons]
      omega

theorem pickLoop_length_eq {pick : Nat → Registry → Option (String × Nat)}
    {K : List String} (hs : PickSound pick) (hc : PickComplete K pick) :
    ∀ (fuel : Nat) (d : Registry) (i : Nat), keys d = K → (keys d).Nodup →
      (pickLoop pick d fuel i).length = min fuel (emptyCount d) := by
  intro fuel
  induction fuel with
  | zero => intro d i _ _; simp [pickLoop]
  | succ n ih =>
    intro d i hK hnd
    rcases Nat.eq_zero_or_pos (emptyCount d) with h0 | h0
    · rcases hp : pick i d with _ | p
      · simp [pickLoop, hp, h0]
      · obtain ⟨c, s⟩ := p
        exact absurd (emptyCount_pos (hs i d c s hp)) (by omega)
    · have hsome := hc i d hK h0
      rcases hp : pick i d with _ | p
      · rw [hp] at hsome; cases hsome
      · obtain ⟨c, s⟩ := p
        have hse := hs i d c s hp
        have hdec := emptyCount_setSlot hnd hse
        have hK' : keys (setSlot d c s Slot.allocated) = K := by
          rw [keys_setSlot]; exact hK
        have hnd' : (keys (setSlot d c s Slot.allocated)).Nodup := by
          rw [keys_setSlot]; exact hnd
        have hrec := ih (setSlot d c s Slot.allocated) (i + 1) hK' hnd'
        simp only [pickLoop, hp, List.length_cons]
        omega

/-- A pair whose slot is already occupied is never produced later. -/
theorem not_mem_pickLoop {pick : Nat → Registry → Option (String × Nat)}
    (hs : PickSound pick) :
    ∀ (fuel : Nat) (d : Registry) (i : Nat) (c : String) (s : Nat),
      ¬SlotEmpty d c s → (c, s) ∉ pickLoop pick d fuel i := by
  intro fuel
  induction fuel with
  | zero => intro d i c s _; simp [pickLoop]
  | succ n ih =>
    intro d i c s h
    rcases hp : pick i d with _ | p
    · simp [pickLoop, hp]
    · obtain ⟨c', s'⟩ := p
      simp only [pickLoop, hp, List.mem_cons, not_or]
      refine ⟨?_, ih _ _ _ _ (not_slotEmpty_setSlot h)⟩
      intro heq
      cases heq
      exact h (hs i d c s hp)

theorem pickLoop_nodup {pick : Nat → Registry → Option (String × Nat)}
    (hs : PickSound pick) :
    ∀ (fuel : Nat) (d : Registry) (i : Nat), (pickLoop pick d fuel i).Nodup := by
  intro fuel
  induction fuel with
  | zero => intro d i; simp [pickLoop]
  | succ n ih =>
    intro d i
    rcases hp : pick i d with _ | p
    · simp [pickLoop, hp]
    · obtain ⟨c, s⟩ := p
      simp only [pickLoop, hp, List.nodup_cons]
      exact ⟨not_mem_pickLoop hs _ _ _ _ _
        (not_slotEmpty_setSlot_self (hs i d c s hp)), ih _ _⟩

theorem pickLoop_congr {p₁ p₂ : Nat → Registry → Option (String × Nat)}
    (h : ∀ i d, p₁ i d = p₂ i d) :
    ∀ (fuel : Nat) (d : Registry) (i : Nat), pickLoop p₁ d fuel i = pickLoop p₂ d fuel i := by
  intro fuel
  induction fuel with
  | zero => intro d i; rfl
  | succ n ih =>
    intro d i
    rcases hp : p₂ i d with _ | p
    · simp [pickLoop, h i d, hp]
    · simp only [pickLoop, h i d, hp, List.cons.injEq, true_and]
      exact ih _ _

/-! ### Soundness and completeness of the individual finders -/

theorem availableCourses_sound {data : Registry} {courses : List String}
    {p : String × Nat} (hmem : p ∈ availableCourses data courses) :
    SlotEmpty data p.1 p.2 := by
  obtain ⟨c, -, hf⟩ := List.mem_filterMap.mp hmem
  rcases h : indexOfNull (getSongs data c) with _ | i
  · rw [h] at hf; cases hf
  · rw [h] at hf
    cases hf
    exact slotEmpty_of_indexOfNull h

theorem findAvailableCourseRandom_sound {r : Nat} {data : Registry}
    {courses : List String} {c : String} {s : Nat}
    (h : findAvailableCourseRandom r data courses = some (c, s)) :
    SlotEmpty data c s :=
  availableCourses_sound (List.getElem?_mem h)

theorem findAvailableCourseRandom_complete {r : Nat} {data : Registry}
    {courses : List String}
    (hex : ∃ c ∈ courses, (indexOfNull (getSongs data c)).isSome) :
    (findAvailableCourseRandom r data courses).isSome := by
  obtain ⟨c, hc, hsome⟩ := hex
  obtain ⟨j, hj⟩ := Option.isSome_iff_exists.mp hsome
  have hmem : (c, j) ∈ availableCourses data courses :=
    List.mem_filterMap.mpr ⟨c, hc, by rw [hj]; rfl⟩
  have hlen : 0 < (availableCourses data courses).length :=
    List.length_pos.mpr (List.ne_nil_of_mem hmem)
  have hlt := Nat.mod_lt r hlen
  rw [findAvailableCourseRandom, List.getElem?_eq_getElem hlt]
  rfl

theorem leastSongsPick_sound {count : List Slot → Nat} {data : Registry}
    {courses : List String} {c : String} {s : Nat}
    (h : leastSongsPick count data courses = some (c, s)) : SlotEmpty data c s := by
  rw [leastSongsPick_eq] at h
  rcases hfm : firstMinBy (fun t : Nat × String × Nat => t.1)
    (lsfTriples count data courses) with _ | t
  · rw [hfm] at h; cases h
  · rw [hfm] at h
    cases h
    have := mem_lsfTriples.mp (firstMinBy_mem hfm)
    exact slotEmpty_of_indexOfNull this.2.1

theorem leastSongsPick_complete {count : List Slot → Nat} {data : Registry}
    {courses : List String}
    (hex : ∃ c ∈ courses, (indexOfNull (getSongs data c)).isSome) :
    (leastSongsPick count data courses).isSome := by
  rw [leastSongsPick_eq]
  obtain ⟨c, hc, hsome⟩ := hex
  obtain ⟨j, hj⟩ := Option.isSome_iff_exists.mp hsome
  have hmem : (count (getSongs data c), c, j) ∈ lsfTriples count data courses :=
    mem_lsfTriples.mpr ⟨hc, hj, rfl⟩
  rcases hfm : firstMinBy (fun t : Nat × String × Nat => t.1)
    (lsfTriples count data courses) with _ | t
  · rw [(firstMinBy_eq_none _ _).mp hfm] at hmem
    cases hmem
  · rfl

theorem findAvailableCourseFairWithCopy_sound {r : Nat} {data : Registry}
    {strategy : String} {c : String} {s : Nat}
    (h : findAvailableCourseFairWithCopy r data strategy = some (c, s)) :
    SlotEmpty data c s := by
  unfold findAvailableCourseFairWithCopy at h
  split_ifs at h
  · rw [withCopy_roundRobin_eq_least] at h
    exact leastSongsPick_sound h
  · exact leastSongsPick_sound h
  · exact findAvailableCourseRandom_sound h
  · exact leastSongsPick_sound h

theorem findAvailableCourseFairWithCopy_complete {r : Nat} {data : Registry}
    {strategy : String} (hnd : (keys data).Nodup) (h0 : 0 < emptyCount data) :
    (findAvailableCourseFairWithCopy r data strategy).isSome := by
  obtain ⟨c, hc, hsome⟩ := exists_empty_of_emptyCount_pos hnd h0
  have hex : ∃ c ∈ sortedKeys data, (indexOfNull (getSongs data c)).isSome :=
    ⟨c, mem_sortedKeys.mpr hc, hsome⟩
  unfold findAvailableCourseFairWithCopy
  split_ifs
  · rw [withCopy_roundRobin_eq_least]
    exact leastSongsPick_complete hex
  · exact leastSongsPick_complete hex
  · exact findAvailableCourseRandom_complete hex
  · exact leastSongsPick_complete hex

/-- The pick family of phase 2 of `batchFairAllocation` is sound for every
strategy string. -/
theorem fairPick_sound (g : Nat → Nat) (strategy : String) :
    PickSound (fun j d => findAvailableCourseFairWithCopy (g j) d strategy) :=
  fun _ _ _ _ h => findAvailableCourseFairWithCopy_sound h

/-- ... and complete whenever the keys are unique. -/
theorem fairPick_complete (g : Nat → Nat) (strategy : String) (K : List String)
    (hnd : K.Nodup) :
    PickComplete K (fun j d => findAvailableCourseFairWithCopy (g j) d strategy) := by
  intro i d hK h0
  exact findAvailableCourseFairWithCopy_complete (hK ▸ hnd) h0

/-- The pick family of `batchRandomAllocation` is sound ... -/
theorem randomPick_sound (g : Nat → Nat) (courses : List String) :
    PickSound (fun i d =>
      (availableCourses d courses)[g i % (availableCourses d courses).length]?) :=
  fun _ d c s h => availableCourses_sound (List.getElem?_mem h)

/-- ... and complete whenever `courses` covers the (unchanged) key set. -/
theorem randomPick_complete (g : Nat → Nat) (courses K : List String)
    (hnd : K.Nodup) (hcov : ∀ c ∈ K, c ∈ courses) :
    PickComplete K (fun i d =>
      (availableCourses d courses)[g i % (availableCourses d courses).length]?) := by
  intro i d hK h0
  obtain ⟨c, hc, hsome⟩ := exists_empty_of_emptyCount_pos (hK ▸ hnd) h0
  exact findAvailableCourseRandom_complete ⟨c, hcov c (hK ▸ hc), hsome⟩

/-! ### Phase 1 (seed round) of the fair batch allocator -/

/-- The seed round's writes never turn an occupied slot empty. -/
theorem seedLoop_preserves_not_empty :
    ∀ (courses : List String) (d : Registry) (budget : Nat) (c : String) (s : Nat),
      ¬SlotEmpty d c s → ¬SlotEmpty (seedLoop d budget courses).2.1 c s := by
  intro courses
  induction courses with
  | nil => intro d budget c s h; exact h
  | cons c₀ rest ih =>
    intro d budget c s h
    by_cases hb : budget = 0
    · simp only [seedLoop, if_pos hb]
      exact h
    · rcases hix : indexOfNull (getSongs d c₀) with _ | i
      · simp only [seedLoop, if_neg hb, hix]
        exact ih _ _ _ _ h
      · simp only [seedLoop, if_neg hb, hix]
        exact ih _ _ _ _ (not_slotEmpty_setSlot h)

/-- Every pair the seed round emits is occupied in the state it leaves. -/
theorem seedLoop_emitted_not_empty :
    ∀ (courses : List String) (d : Registry) (budget : Nat),
      ∀ p ∈ (seedLoop d budget courses).1, ¬SlotEmpty (seedLoop d budget courses).2.1 p.1 p.2 := by
  intro courses
  induction courses with
  | nil => intro d budget p hp; cases hp
  | cons c₀ rest ih =>
    intro d budget p hp
    by_cases hb : budget = 0
    · simp only [seedLoop, if_pos hb] at hp
      cases hp
    · rcases hix : indexOfNull (getSongs d c₀) with _ | i
      · simp only [seedLoop, if_neg hb, hix] at hp ⊢
        exact ih _ _ p hp
      · simp only [seedLoop, if_neg hb, hix] at hp ⊢
        rcases List.mem_cons.mp hp with rfl | hp'
        · exact seedLoop_preserves_not_empty _ _ _ _ _
            (not_slotEmpty_setSlot_self (slotEmpty_of_indexOfNull hix))
        · exact ih _ _ p hp'

/-- Bookkeeping of the seed round: keys are untouched, every emitted entry
consumed one empty slot and one unit of budget, and the emitted courses
form a sublist of the scanned course list. -/
theorem seedLoop_spec :
    ∀ (courses : List String) (d : Registry) (budget : Nat), (keys d).Nodup →
      keys (seedLoop d budget courses).2.1 = keys d ∧
      emptyCount d =
        emptyCount (seedLoop d budget courses).2.1 + (seedLoop d budget courses).1.length ∧
      (seedLoop d budget courses).2.2 + (seedLoop d budget courses).1.length = budget ∧
      ((seedLoop d budget courses).1.map Prod.fst).Sublist courses := by
  intro courses
  induction courses with
  | nil => intro d budget _; simp [seedLoop]
  | cons c₀ rest ih =>
    intro d budget hnd
    by_cases hb : budget = 0
    · simp [seedLoop, if_pos hb, hb]
    · rcases hix : indexOfNull (getSongs d c₀) with _ | i
      · simp only [seedLoop, if_neg hb, hix]
        obtain ⟨h1, h2, h3, h4⟩ := ih d budget hnd
        exact ⟨h1, h2, h3, h4.cons c₀⟩
      · have hse := slotEmpty_of_indexOfNull hix
        have hnd' : (keys (setSlot d c₀ i Slot.allocated)).Nodup := by
          rw [keys_setSlot]; exact hnd
        obtain ⟨h1, h2, h3, h4⟩ := ih (setSlot d c₀ i Slot.allocated) (budget - 1) hnd'
        have hdec := emptyCount_setSlot hnd hse
        simp only [seedLoop, if_neg hb, hix]
        refine ⟨by rw [h1, keys_setSlot], by simp only [List.length_cons]; omega,
          by simp only [List.length_cons]; omega, ?_⟩
        simpa using h4.cons₂ c₀

/-- When every scanned course has an empty slot and the scanned courses
are distinct, the seed round serves them in order until the budget runs
out. -/
theorem seedLoop_courses :
    ∀ (courses : List String) (d : Registry) (budget : Nat), courses.Nodup →
      (∀ c ∈ courses, (indexOfNull (getSongs d c)).isSome) →
      (seedLoop d budget courses).1.map Prod.fst = courses.take budget := by
  intro courses
  induction courses with
  | nil => intro d budget _ _; simp [seedLoop]
  | cons c₀ rest ih =>
    intro d budget hnd hall
    by_cases hb : budget = 0
    · simp [seedLoop, if_pos hb, hb]
    · rcases hix : indexOfNull (getSongs d c₀) with _ | i
      · have := hall c₀ (List.mem_cons_self _ _)
        rw [hix] at this
        cases this
      · simp only [seedLoop, if_neg hb, hix]
        simp only [List.nodup_cons] at hnd
        have hall' : ∀ c ∈ rest,
            (indexOfNull (getSongs (setSlot d c₀ i Slot.allocated) c)).isSome := by
          intro c hc
          rw [getSongs_setSlot_ne _ _ _ (fun h => hnd.1 (by rw [← h]; exact hc))]
          exact hall c (List.mem_cons_of_mem _ hc)
        rw [List.map_cons, ih _ (budget - 1) hnd.2 hall']
        obtain ⟨n, rfl⟩ := Nat.exists_eq_succ_of_ne_zero hb
        simp

/-! ### Counting empty slots against the course list -/

theorem length_le_sum_nat {L : List Nat} (h : ∀ x ∈ L, 1 ≤ x) : L.length ≤ L.sum := by
  induction L with
  | nil => simp
  | cons a l ih =>
    have ha := h a (List.mem_cons_self _ _)
    have hl := ih fun x hx => h x (List.mem_cons_of_mem _ hx)
    simp only [List.length_cons, List.sum_cons]
    omega

theorem emptyCount_eq_sum_keys {data : Registry} (hnd : (keys data).Nodup) :
    emptyCount data = ((keys data).map fun c => countEmpty (getSongs data c)).sum := by
  induction data with
  | nil => rfl
  | cons kv rest ih =>
    have hnd' : (keys rest).Nodup := (List.nodup_cons.mp hnd).2
    have hni : kv.1 ∉ keys rest := (List.nodup_cons.mp hnd).1
    have h1 : getSongs (kv :: rest) kv.1 = kv.2 := by simp [getSongs, lookupSongs]
    have h2 : ∀ c ∈ keys rest, getSongs (kv :: rest) c = getSongs rest c := by
      intro c hc
      have hne : kv.1 ≠ c := fun h => hni (h ▸ hc)
      simp [getSongs, lookupSongs, hne]
    show countEmpty kv.2 + emptyCount rest = _
    rw [ih hnd']
    show _ = ((kv.1 :: keys rest).map fun c => countEmpty (getSongs (kv :: rest) c)).sum
    rw [List.map_cons, List.sum_cons, h1]
    congr 1
    exact congrArg List.sum (List.map_congr_left fun c hc => by rw [h2 c hc]).symm

theorem emptyCount_eq_sum_sortedKeys {data : Registry} (hnd : (keys data).Nodup) :
    emptyCount data = ((sortedKeys data).map fun c => countEmpty (getSongs data c)).sum := by
  rw [emptyCount_eq_sum_keys hnd]
  exact (((sortedKeys_perm data).map _).sum_eq).symm

/-- There are at least as many empty slots as courses holding one. -/
theorem fairCourses_length_le {data : Registry} (hnd : (keys data).Nodup) :
    ((sortedKeys data).filter fun c => (getSongs data c).contains Slot.empty).length ≤
      emptyCount data := by
  set F := (sortedKeys data).filter fun c => (getSongs data c).contains Slot.empty with hF
  have h1 : F.length ≤ (F.map fun c => countEmpty (getSongs data c)).sum := by
    have hone : ∀ x ∈ F.map fun c => countEmpty (getSongs data c), 1 ≤ x := by
      intro x hx
      obtain ⟨c, hc, rfl⟩ := List.mem_map.mp hx
      have hp := (List.mem_filter.mp hc).2
      have := contains_empty_iff.mp hp
      omega
    have := length_le_sum_nat hone
    simpa using this
  have h2 : (F.map fun c => countEmpty (getSongs data c)).sum ≤
      ((sortedKeys data).map fun c => countEmpty (getSongs data c)).sum :=
    List.Sublist.sum_le_sum ((List.filter_sublist _).map _) fun _ _ => Nat.zero_le _
  rw [emptyCount_eq_sum_sortedKeys hnd]
  omega

/-! ### The fair batch allocator, assembled -/

theorem batchFairAllocation_unfold (g : Nat → Nat) (dataCopy : Registry) (n : Nat)
    (strategy : String) (courses : List String) :
    batchFairAllocation g dataCopy n strategy courses =
      (seedLoop dataCopy n (List.insertionSort
          (fun a b => countNonNull (getSongs dataCopy a) ≤ countNonNull (getSongs dataCopy b))
          (courses.filter fun c => (getSongs dataCopy c).contains Slot.empty))).1 ++
        pickLoop (fun j d => findAvailableCourseFairWithCopy (g j) d strategy)
          (seedLoop dataCopy n (List.insertionSort
            (fun a b => countNonNull (getSongs dataCopy a) ≤ countNonNull (getSongs dataCopy b))
            (courses.filter fun c => (getSongs dataCopy c).contains Slot.empty))).2.1
          (seedLoop dataCopy n (List.insertionSort
            (fun a b => countNonNull (getSongs dataCopy a) ≤ countNonNull (getSongs dataCopy b))
            (courses.filter fun c => (getSongs dataCopy c).contains Slot.empty))).2.2 0 := by
  simp only [batchFairAllocation, ite_self]

theorem batchFairAllocation_length {g : Nat → Nat} {data : Registry} {n : Nat}
    {strategy : String} (hnd : (keys data).Nodup) :
    (batchFairAllocation g data n strategy (sortedKeys data)).length =
      min n (emptyCount data) := by
  rw [batchFairAllocation_unfold]
  set cwes := (sortedKeys data).filter fun c => (getSongs data c).contains Slot.empty
    with hcwes
  set sc := List.insertionSort
    (fun a b => countNonNull (getSongs data a) ≤ countNonNull (getSongs data b)) cwes
    with hsc
  have hperm : List.Perm sc cwes := List.perm_insertionSort _ _
  have hnodup_sc : sc.Nodup := hperm.nodup_iff.mpr ((sortedKeys_nodup hnd).filter _)
  have hall : ∀ c ∈ sc, (indexOfNull (getSongs data c)).isSome := by
    intro c hc
    have hp := (List.mem_filter.mp (hperm.subset hc)).2
    rw [indexOfNull_isSome]
    exact contains_empty_iff.mp hp
  obtain ⟨h1, h2, h3, -⟩ := seedLoop_spec sc data n hnd
  have hcourses := seedLoop_courses sc data n hnodup_sc hall
  have hlen_seed : (seedLoop data n sc).1.length = min n sc.length := by
    have := congrArg List.length hcourses
    simpa using this
  have hk_le : sc.length ≤ emptyCount data := by
    rw [hperm.length_eq]
    exact fairCourses_length_le hnd
  have hfill := pickLoop_length_eq (fairPick_sound g strategy)
    (fairPick_complete g strategy (keys data) hnd) (seedLoop data n sc).2.2
    (seedLoop data n sc).2.1 0 h1 (by rw [h1]; exact hnd)
  rw [List.length_append, hfill]
  omega

theorem batchFairAllocation_nodup {g : Nat → Nat} {data : Registry} {n : Nat}
    {strategy : String} (hnd : (keys data).Nodup) :
    (batchFairAllocation g data n strategy (sortedKeys data)).Nodup := by
  rw [batchFairAllocation_unfold]
  set cwes := (sortedKeys data).filter fun c => (getSongs data c).contains Slot.empty
    with hcwes
  set sc := List.insertionSort
    (fun a b => countNonNull (getSongs data a) ≤ countNonNull (getSongs data b)) cwes
    with hsc
  have hperm : List.Perm sc cwes := List.perm_insertionSort _ _
  have hnodup_sc : sc.Nodup := hperm.nodup_iff.mpr ((sortedKeys_nodup hnd).filter _)
  rw [List.nodup_append]
  obtain ⟨-, -, -, hsub⟩ := seedLoop_spec sc data n hnd
  refine ⟨?_, pickLoop_nodup (fairPick_sound g strategy) _ _ _, ?_⟩
  · exact (hnodup_sc.sublist hsub).of_map
  · intro p hp
    exact not_mem_pickLoop (fairPick_sound g strategy) _ _ _ _ _
      (seedLoop_emitted_not_empty sc data n p hp)

/-! ### The original (first-fit) batch allocator -/

theorem origInner_spec :
    ∀ (songs : List Slot) (budget idx : Nat),
      (origInner budget idx songs).1 = (emptySlotsFrom idx songs).take budget ∧
      (origInner budget idx songs).2.2 +
        ((emptySlotsFrom idx songs).take budget).length = budget := by
  intro songs
  induction songs with
  | nil => intro budget idx; simp [origInner, emptySlotsFrom]
  | cons s rest ih =>
    intro budget idx
    by_cases hb : budget = 0
    · subst hb
      simp [origInner, emptySlotsFrom]
    · by_cases hs : s = Slot.empty
      · subst hs
        obtain ⟨e1, e2⟩ := ih (budget - 1) (idx + 1)
        obtain ⟨n, rfl⟩ := Nat.exists_eq_succ_of_ne_zero hb
        simp only [origInner, if_neg hb, beq_self_eq_true, if_true, emptySlotsFrom,
          Nat.succ_sub_one, Nat.add_sub_cancel] at e1 e2 ⊢
        rw [List.take_succ_cons]
        refine ⟨by rw [e1], ?_⟩
        simp only [List.length_cons]
        omega
      · have hbeq : (s == Slot.empty) = false := by simp [hs]
        obtain ⟨e1, e2⟩ := ih budget (idx + 1)
        simp only [origInner, if_neg hb, hbeq, Bool.false_eq_true, if_false,
          emptySlotsFrom] at e1 e2 ⊢
        exact ⟨e1, e2⟩

theorem origCourseLoop_spec :
    ∀ (courses : List String) (d : Registry) (budget : Nat), courses.Nodup →
      (origCourseLoop d budget courses).1 =
        ((courses.map fun c => (emptySlots (getSongs d c)).map fun i => (c, i)).join).take
          budget := by
  intro courses
  induction courses with
  | nil => intro d budget _; simp [origCourseLoop]
  | cons c rest ih =>
    intro d budget hnd
    by_cases hb : budget = 0
    · subst hb
      simp [origCourseLoop]
    · simp only [origCourseLoop, if_neg hb, List.map_cons, List.join_cons]
      obtain ⟨e1, e2⟩ := origInner_spec (getSongs d c) budget 0
      rw [List.take_append_eq_append_take]
      simp only [List.nodup_cons] at hnd
      have hrest : ∀ c' ∈ rest,
          getSongs (setSongs d c (origInner budget 0 (getSongs d c)).2.1) c' =
            getSongs d c' := by
        intro c' hc'
        exact getSongs_setSongs_ne _ _ (fun h => hnd.1 (by rw [← h]; exact hc'))
      rw [ih _ _ hnd.2]
      have hmaps : (rest.map fun c' =>
            (emptySlots (getSongs (setSongs d c (origInner budget 0 (getSongs d c)).2.1) c')).map
              fun i => (c', i)) =
          rest.map fun c' => (emptySlots (getSongs d c')).map fun i => (c', i) :=
        List.map_congr_left fun c' hc' => by rw [hrest c' hc']
      rw [hmaps]
      congr 1
      · rw [e1, emptySlots, List.map_take]
      · congr 1
        have hlen : ((emptySlots (getSongs d c)).map fun i => (c, i)).length =
            countEmpty (getSongs d c) := by
          rw [List.length_map, emptySlots, length_emptySlotsFrom]
        rw [hlen]
        have htlen : ((emptySlotsFrom 0 (getSongs d c)).take budget).length =
            min budget (countEmpty (getSongs d c)) := by
          rw [List.length_take, length_emptySlotsFrom]
        have e2' : (origInner budget 0 (getSongs d c)).2.2 +
            ((emptySlotsFrom 0 (getSongs d c)).take budget).length = budget := e2
        omega

theorem batchOriginal_eq_canonical {data : Registry} {n : Nat}
    (hnd : (keys data).Nodup) :
    batchOriginalAllocation data n (sortedKeys data) = canonicalOriginalPlan data n := by
  unfold batchOriginalAllocation canonicalOriginalPlan
  exact origCourseLoop_spec (sortedKeys data) data n (sortedKeys_nodup hnd)

/-- Strict lexicographic sortedness of the canonical original-mode plan. -/
theorem canonicalOriginalPlan_pairwise {data : Registry} {n : Nat}
    (hnd : (keys data).Nodup) :
    (canonicalOriginalPlan data n).Pairwise slotLt := by
  unfold canonicalOriginalPlan
  refine List.Pairwise.sublist (List.take_sublist _ _) ?_
  rw [List.pairwise_join]
  refine ⟨?_, ?_⟩
  · intro l hl
    obtain ⟨c, -, rfl⟩ := List.mem_map.mp hl
    refine List.Pairwise.map _ ?_ (emptySlotsFrom_pairwise 0 (getSongs data c))
    intro i j hij
    exact Or.inr ⟨rfl, hij⟩
  · have hsorted : (sortedKeys data).Pairwise jsLe := sortedKeys_sorted data
    have hnd' : (sortedKeys data).Pairwise (· ≠ ·) := sortedKeys_nodup hnd
    have hstrict : (sortedKeys data).Pairwise (· < ·) := by
      have hand := hsorted.and hnd'
      exact hand.imp fun h =>
        lt_of_le_of_ne (String.le_iff_toList_le.mpr h.1) h.2
    refine List.Pairwise.map _ ?_ hstrict
    intro c₁ c₂ hlt p hp q hq
    obtain ⟨i, -, rfl⟩ := List.mem_map.mp hp
    obtain ⟨j, -, rfl⟩ := List.mem_map.mp hq
    exact Or.inl hlt

/-- No pair repeats in the canonical original-mode plan. -/
theorem canonicalOriginalPlan_nodup {data : Registry} {n : Nat}
    (hnd : (keys data).Nodup) : (canonicalOriginalPlan data n).Nodup := by
  refine (canonicalOriginalPlan_pairwise hnd).imp ?_
  intro p q hpq
  rcases hpq with hlt | ⟨-, hlt⟩
  · exact fun h => absurd (h ▸ hlt) (lt_irrefl _)
  · exact fun h => absurd (h ▸ hlt) (lt_irrefl _)

theorem canonicalOriginalPlan_length {data : Registry} {n : Nat}
    (hnd : (keys data).Nodup) :
    (canonicalOriginalPlan data n).length = min n (emptyCount data) := by
  unfold canonicalOriginalPlan
  rw [List.length_take, List.length_join]
  congr 1
  rw [emptyCount_eq_sum_sortedKeys hnd]
  congr 1
  rw [List.map_map]
  refine List.map_congr_left fun c _ => ?_
  simp only [Function.comp_apply, List.length_map, emptySlots, length_emptySlotsFrom]

/-! ### The random batch allocator and the dispatcher -/

theorem batchRandomAllocation_length {g : Nat → Nat} {data : Registry} {n : Nat}
    (hnd : (keys data).Nodup) :
    (batchRandomAllocation g data n (sortedKeys data)).length = min n (emptyCount data) :=
  pickLoop_length_eq (randomPick_sound g _)
    (randomPick_complete g _ (keys data) hnd fun _ hc => mem_sortedKeys.mpr hc)
    n data 0 rfl hnd

theorem batchRandomAllocation_nodup (g : Nat → Nat) (data : Registry) (n : Nat)
    (courses : List String) :
    (batchRandomAllocation g data n courses).Nodup :=
  pickLoop_nodup (randomPick_sound g courses) n data 0

/-- `batchAllocation` is exactly its three-way dispatch on the working
copy (the JSON deep copy of plain data has the same value). -/
theorem batchAllocation_eq_cases (g : Nat → Nat) (data : Registry) (n : Nat)
    (strategy : String) :
    batchAllocation g data n strategy =
      if strategy == "original" then batchOriginalAllocation data n (sortedKeys data)
      else if strategy == "random" then batchRandomAllocation g data n (sortedKeys data)
      else batchFairAllocation g data n strategy (sortedKeys data) := rfl

theorem batchAllocation_length {g : Nat → Nat} {data : Registry} {n : Nat}
    {strategy : String} (hnd : (keys data).Nodup) :
    (batchAllocation g data n strategy).length = min n (emptyCount data) := by
  rw [batchAllocation_eq_cases]
  split_ifs
  · rw [batchOriginal_eq_canonical hnd, canonicalOriginalPlan_length hnd]
  · exact batchRandomAllocation_length hnd
  · exact batchFairAllocation_length hnd

theorem batchAllocation_nodup {g : Nat → Nat} {data : Registry} {n : Nat}
    {strategy : String} (hnd : (keys data).Nodup) :
    (batchAllocation g data n strategy).Nodup := by
  rw [batchAllocation_eq_cases]
  split_ifs
  · rw [batchOriginal_eq_canonical hnd]
    exact canonicalOriginalPlan_nodup hnd
  · exact batchRandomAllocation_nodup g data n (sortedKeys data)
  · exact batchFairAllocation_nodup hnd

/-! ### Fallback behaviour on unrecognized strategy strings -/

theorem findAvailableCourseFair_fallback {r : Nat} {data : Registry} {strategy : String}
    (h1 : strategy ≠ "round_robin") (h2 : strategy ≠ "least_songs_first")
    (h3 : strategy ≠ "random") :
    findAvailableCourseFair r data strategy = findAvailableCourse data := by
  unfold findAvailableCourseFair
  simp [h1, h2, h3]

/-- Every strategy other than `round_robin` and `random` (so
`least_songs_first` itself, and every unrecognized string) makes
`findAvailableCourseFairWithCopy` run the least-songs-first selector. -/
theorem findAvailableCourseFairWithCopy_fallback {r : Nat} {data : Registry}
    {strategy : String} (h1 : strategy ≠ "round_robin") (h3 : strategy ≠ "random") :
    findAvailableCourseFairWithCopy r data strategy =
      findAvailableCourseLeastSongsFirstWithCopy data (sortedKeys data) := by
  unfold findAvailableCourseFairWithCopy
  by_cases h2 : strategy = "least_songs_first" <;> simp [h1, h2, h3]

theorem fairWithCopy_oracle_irrel {r r' : Nat} {d : Registry} {strategy : String}
    (h : strategy ≠ "random") :
    findAvailableCourseFairWithCopy r d strategy =
      findAvailableCourseFairWithCopy r' d strategy := by
  unfold findAvailableCourseFairWithCopy
  simp [h]

theorem batchFairAllocation_oracle_irrel {g g' : Nat → Nat} {data : Registry} {n : Nat}
    {strategy : String} {courses : List String} (h : strategy ≠ "random") :
    batchFairAllocation g data n strategy courses =
      batchFairAllocation g' data n strategy courses := by
  rw [batchFairAllocation_unfold, batchFairAllocation_unfold]
  congr 1
  exact pickLoop_congr (fun i d => fairWithCopy_oracle_irrel h) _ _ _

/-- Strategies other than `"random"` never consult the random stream in
the fair batch path; dispatch makes the same true of `batchAllocation`
for the three deterministic strategies. -/
theorem batchAllocation_deterministic {g g' : Nat → Nat} {data : Registry} {n : Nat}
    {strategy : String}
    (h : strategy = "round_robin" ∨ strategy = "least_songs_first" ∨
      strategy = "original") :
    batchAllocation g data n strategy = batchAllocation g' data n strategy := by
  rcases h with rfl | rfl | rfl
  · exact batchFairAllocation_oracle_irrel (by decide)
  · exact batchFairAllocation_oracle_irrel (by decide)
  · rfl

/-! ### The two fair strategies coincide in batch mode -/

theorem fairWithCopy_rr_eq_lsf (r : Nat) (d : Registry) :
    findAvailableCourseFairWithCopy r d "round_robin" =
      findAvailableCourseFairWithCopy r d "least_songs_first" := by
  show findAvailableCourseRoundRobinWithCopy d (sortedKeys d) =
    findAvailableCourseLeastSongsFirstWithCopy d (sortedKeys d)
  exact withCopy_roundRobin_eq_least d (sortedKeys d)

theorem batchAllocation_rr_eq_lsf (g : Nat → Nat) (data : Registry) (n : Nat) :
    batchAllocation g data n "round_robin" =
      batchAllocation g data n "least_songs_first" := by
  show batchFairAllocation g data n "round_robin" (sortedKeys data) =
    batchFairAllocation g data n "least_songs_first" (sortedKeys data)
  rw [batchFairAllocation_unfold, batchFairAllocation_unfold]
  congr 1
  exact pickLoop_congr (fun i d => fairWithCopy_rr_eq_lsf (g i) d) _ _ _

/-- An unrecognized strategy string is a silent alias of
`least_songs_first` in the batch planner. -/
theorem batchAllocation_fallback {g : Nat → Nat} {data : Registry} {n : Nat}
    {strategy : String} (h1 : strategy ≠ "round_robin")
    (h3 : strategy ≠ "random") (h4 : strategy ≠ "original") :
    batchAllocation g data n strategy = batchAllocation g data n "least_songs_first" := by
  rw [batchAllocation_eq_cases, batchAllocation_eq_cases]
  simp only [h3, h4, beq_iff_eq, if_false]
  show batchFairAllocation g data n strategy (sortedKeys data) =
    batchFairAllocation g data n "least_songs_first" (sortedKeys data)
  rw [batchFairAllocation_unfold, batchFairAllocation_unfold]
  congr 1
  refine pickLoop_congr (fun i d => ?_) _ _ _
  rw [findAvailableCourseFairWithCopy_fallback h1 h3]
  rfl

/-! ### The seed-round guarantee -/

theorem batchFairAllocation_seed_perm {g : Nat → Nat} {data : Registry} {n : Nat}
    {strategy : String} (hnd : (keys data).Nodup)
    (hge : (coursesWithEmpty data).length ≤ n) :
    List.Perm
      (((batchFairAllocation g data n strategy (sortedKeys data)).take
          (coursesWithEmpty data).length).map Prod.fst)
      (coursesWithEmpty data) := by
  rw [batchFairAllocation_unfold]
  set cwes := (sortedKeys data).filter fun c => (getSongs data c).contains Slot.empty
    with hcwes
  have hcw : coursesWithEmpty data = cwes := rfl
  set sc := List.insertionSort
    (fun a b => countNonNull (getSongs data a) ≤ countNonNull (getSongs data b)) cwes
    with hsc
  have hperm : List.Perm sc cwes := List.perm_insertionSort _ _
  have hnodup_sc : sc.Nodup := hperm.nodup_iff.mpr ((sortedKeys_nodup hnd).filter _)
  have hall : ∀ c ∈ sc, (indexOfNull (getSongs data c)).isSome := by
    intro c hc
    have hp := (List.mem_filter.mp (hperm.subset hc)).2
    rw [indexOfNull_isSome]
    exact contains_empty_iff.mp hp
  have hcourses := seedLoop_courses sc data n hnodup_sc hall
  have hsc_le : sc.length ≤ n := by
    rw [hperm.length_eq, ← hcw]
    exact hge
  rw [List.take_of_length_le hsc_le] at hcourses
  have hlen_seed : (seedLoop data n sc).1.length = sc.length := by
    have := congrArg List.length hcourses
    simpa using this
  have hlen_cw : (coursesWithEmpty data).length = (seedLoop data n sc).1.length := by
    rw [hlen_seed, hcw, hperm.length_eq]
  rw [hlen_cw, List.take_left' rfl, hcourses, hcw]
  exact hperm

/-! ### Declarative characterisation of the fair single-call selection -/

theorem leastSongsPick_char {count : List Slot → Nat} {data : Registry}
    {courses : List String} (hsorted : courses.Pairwise jsLe) {c : String} {s : Nat}
    (h : leastSongsPick count data courses = some (c, s)) :
    c ∈ courses ∧ indexOfNull (getSongs data c) = some s ∧
      ∀ c' ∈ courses, (indexOfNull (getSongs data c')).isSome →
        count (getSongs data c) ≤ count (getSongs data c') ∧
          (count (getSongs data c') = count (getSongs data c) → c ≤ c') := by
  rw [leastSongsPick_eq] at h
  rcases hfm : firstMinBy (fun t : Nat × String × Nat => t.1)
    (lsfTriples count data courses) with _ | t
  · rw [hfm] at h; cases h
  · rw [hfm] at h
    cases h
    obtain ⟨hmem_c, hix, hkey⟩ := mem_lsfTriples.mp (firstMinBy_mem hfm)
    obtain ⟨l₁, l₂, hsplit, h₁, h₂⟩ := firstMinBy_spec hfm
    refine ⟨hmem_c, hix, ?_⟩
    intro c' hc' hsome'
    obtain ⟨j, hj⟩ := Option.isSome_iff_exists.mp hsome'
    have ht' : (count (getSongs data c'), c', j) ∈ lsfTriples count data courses :=
      mem_lsfTriples.mpr ⟨hc', hj, rfl⟩
    have hmin : t.1 ≤ count (getSongs data c') := by
      rw [hsplit] at ht'
      rcases List.mem_append.mp ht' with hx | hx
      · exact Nat.le_of_lt (h₁ _ hx)
      · rcases List.mem_cons.mp hx with heq | hx
        · rw [← heq]
        · exact h₂ _ hx
    constructor
    · rw [← hkey]
      exact hmin
    · intro heq
      rw [hsplit] at ht'
      rcases List.mem_append.mp ht' with hx | hx
      · have := h₁ _ hx
        rw [heq, ← hkey] at this
        omega
      · rcases List.mem_cons.mp hx with heqt | hx
        · have : c' = t.2.1 := by rw [← heqt]
          rw [this]
        · have hmap := lsfTriples_map_course count data courses
          rw [hsplit] at hmap
          simp only [List.map_append, List.map_cons] at hmap
          have hsorted' : (courses.filter fun c =>
              (indexOfNull (getSongs data c)).isSome).Pairwise jsLe :=
            hsorted.sublist (List.filter_sublist _)
          rw [← hmap] at hsorted'
          have hmid : (t.2.1 :: l₂.map fun t => t.2.1).Pairwise jsLe :=
            (List.pairwise_append.mp hsorted').2.1
          have hrel := List.rel_of_pairwise_cons hmid
            (List.mem_map_of_mem (fun t => t.2.1) hx)
          exact String.le_iff_toList_le.mpr hrel

/-! ### C8 auxiliary: when does the scan come back empty -/

theorem leastSongsPick_eq_none_iff {count : List Slot → Nat} {data : Registry}
    {courses : List String} :
    leastSongsPick count data courses = none ↔
      ∀ c ∈ courses, indexOfNull (getSongs data c) = none := by
  rw [leastSongsPick_eq, Option.map_eq_none', firstMinBy_eq_none]
  unfold lsfTriples
  rw [List.filterMap_eq_nil_iff]
  constructor
  · intro h c hc
    have := h c hc
    rwa [Option.map_eq_none'] at this
  · intro h c hc
    rw [Option.map_eq_none']
    exact h c hc

/-! ### The allocation analyzer -/

theorem sum_eq_zero_iff_of_nonneg {l : List ℝ} (h : ∀ x ∈ l, 0 ≤ x) :
    l.sum = 0 ↔ ∀ x ∈ l, x = 0 := by
  induction l with
  | nil => simp
  | cons a t ih =>
    simp only [List.sum_cons, List.mem_cons, forall_eq_or_imp]
    have ha := h a (List.mem_cons_self _ _)
    have ht : ∀ x ∈ t, 0 ≤ x := fun x hx => h x (List.mem_cons_of_mem _ hx)
    have hts : 0 ≤ t.sum := List.sum_nonneg ht
    constructor
    · intro h0
      have ha0 : a = 0 := by linarith
      exact ⟨ha0, (ih ht).mp (by linarith)⟩
    · rintro ⟨rfl, hall⟩
      rw [(ih ht).mpr hall]
      simp

theorem fairnessVariance_nonneg (counts : List Nat) (songCount : Nat) :
    0 ≤ fairnessVariance counts songCount := by
  unfold fairnessVariance
  apply div_nonneg
  · exact List.sum_nonneg fun x hx => by
      obtain ⟨c, -, rfl⟩ := List.mem_map.mp hx
      positivity
  · positivity

theorem standardDeviation_nonneg (counts : List Nat) (songCount : Nat) :
    0 ≤ standardDeviation counts songCount :=
  Real.sqrt_nonneg _

theorem fairnessScore_pos (counts : List Nat) (songCount : Nat) :
    0 < fairnessScore counts songCount := by
  unfold fairnessScore
  have := standardDeviation_nonneg counts songCount
  positivity

theorem fairnessScore_le_one (counts : List Nat) (songCount : Nat) :
    fairnessScore counts songCount ≤ 1 := by
  unfold fairnessScore
  have hs := standardDeviation_nonneg counts songCount
  rw [div_le_one (by linarith)]
  linarith

theorem fairnessScore_eq_one_iff {counts : List Nat} (songCount : Nat)
    (h : counts ≠ []) :
    fairnessScore counts songCount = 1 ↔
      ∀ x ∈ counts, (x : ℝ) = (songCount : ℝ) / (counts.length : ℝ) := by
  have hs := standardDeviation_nonneg counts songCount
  have hv := fairnessVariance_nonneg counts songCount
  have hlen : (counts.length : ℝ) ≠ 0 := by
    have := List.length_pos.mpr h
    exact Nat.cast_ne_zero.mpr (by omega)
  unfold fairnessScore
  rw [div_eq_one_iff_eq (by linarith : (1 : ℝ) + standardDeviation counts songCount ≠ 0)]
  constructor
  · intro h1
    have hsd : standardDeviation counts songCount = 0 := by linarith
    unfold standardDeviation at hsd
    have hv0 : fairnessVariance counts songCount = 0 :=
      (Real.sqrt_eq_zero hv).mp hsd
    unfold fairnessVariance at hv0
    rcases div_eq_zero_iff.mp hv0 with hsum | hbad
    · intro x hx
      have hterm := (sum_eq_zero_iff_of_nonneg ?_).mp hsum
        (((x : ℝ) - (songCount : ℝ) / (counts.length : ℝ)) ^ 2)
        (List.mem_map_of_mem
          (fun c : Nat => ((c : ℝ) - (songCount : ℝ) / (counts.length : ℝ)) ^ 2) hx)
      · have h2 : (2 : ℕ) ≠ 0 := by norm_num
        have := (pow_eq_zero_iff h2).mp hterm
        linarith [sub_eq_zero.mp this]
      · intro y hy
        obtain ⟨c, -, rfl⟩ := List.mem_map.mp hy
        positivity
    · exact absurd hbad hlen
  · intro hall
    have hsum : ((counts.map fun c : Nat =>
        ((c : ℝ) - (songCount : ℝ) / (counts.length : ℝ)) ^ 2)).sum = 0 := by
      apply (sum_eq_zero_iff_of_nonneg ?_).mpr
      · intro y hy
        obtain ⟨c, hc, rfl⟩ := List.mem_map.mp hy
        rw [hall c hc]
        ring
      · intro y hy
        obtain ⟨c, -, rfl⟩ := List.mem_map.mp hy
        positivity
    have hv0 : fairnessVariance counts songCount = 0 := by
      unfold fairnessVariance
      rw [hsum]
      simp
    have hsd : standardDeviation counts songCount = 0 := by
      unfold standardDeviation
      rw [hv0, Real.sqrt_zero]
    rw [hsd]
    ring

theorem pickBestLoop_of_all_le :
    ∀ (l : List (String × ℝ)) (acc : ℝ × Option String),
      (∀ y ∈ l, y.2 ≤ acc.1) →
      l.foldl (fun acc p => if acc.1 < p.2 then (p.2, some p.1) else acc) acc = acc := by
  intro l
  induction l with
  | nil => intro acc _; rfl
  | cons y t ih =>
    intro acc hle
    rw [List.foldl_cons, if_neg (not_lt.mpr (hle y (List.mem_cons_self _ _)))]
    exact ih acc fun z hz => hle z (List.mem_cons_of_mem _ hz)

theorem pickBestLoop_lt :
    ∀ (l : List (String × ℝ)) (acc : ℝ × Option String) (x : ℝ),
      acc.1 < x → (∀ y ∈ l, y.2 < x) →
      (l.foldl (fun acc p => if acc.1 < p.2 then (p.2, some p.1) else acc) acc).1 < x := by
  intro l
  induction l with
  | nil => intro acc x hacc _; exact hacc
  | cons y t ih =>
    intro acc x hacc hlt
    rw [List.foldl_cons]
    split_ifs
    · exact ih _ x (hlt y (List.mem_cons_self _ _))
        fun z hz => hlt z (List.mem_cons_of_mem _ hz)
    · exact ih _ x hacc fun z hz => hlt z (List.mem_cons_of_mem _ hz)

/-- The recommendation loop selects the earliest strategy attaining the
strictly largest (positive) score: strictly higher scores win, ties go to
the strategy evaluated earlier. -/
theorem recommendation_first_max (l₁ l₂ : List (String × ℝ)) (x : String × ℝ)
    (h0 : 0 < x.2) (hlt : ∀ y ∈ l₁, y.2 < x.2) (hle : ∀ y ∈ l₂, y.2 ≤ x.2) :
    recommendation (l₁ ++ x :: l₂) = some x.1 := by
  unfold recommendation pickBestLoop
  rw [List.foldl_append, List.foldl_cons]
  have hacc := pickBestLoop_lt l₁ (0, none) x.2 h0 hlt
  rw [if_pos hacc, pickBestLoop_of_all_le l₂ (x.2, some x.1) hle]

theorem fairnessScore_five_five : fairnessScore [5, 5] 10 = 1 := by
  have h1 : fairnessVariance [5, 5] 10 = 0 := by
    unfold fairnessVariance
    norm_num
  unfold fairnessScore standardDeviation
  rw [h1, Real.sqrt_zero]
  norm_num

theorem fairnessScore_nine_one : fairnessScore [9, 1] 10 = 1 / 5 := by
  have h1 : fairnessVariance [9, 1] 10 = 16 := by
    unfold fairnessVariance
    norm_num
  unfold fairnessScore standardDeviation
  rw [h1, show (16 : ℝ) = 4 ^ 2 by norm_num,
    Real.sqrt_sq (by norm_num : (0 : ℝ) ≤ 4)]
  norm_num

theorem fairnessScore_two_two : fairnessScore [2, 2] 10 = 1 / 4 := by
  have h1 : fairnessVariance [2, 2] 10 = 9 := by
    unfold fairnessVariance
    norm_num
  unfold fairnessScore standardDeviation
  rw [h1, show (9 : ℝ) = 3 ^ 2 by norm_num,
    Real.sqrt_sq (by norm_num : (0 : ℝ) ≤ 3)]
  norm_num

/-! ### The claims -/

/-- C1: for every registry snapshot, every strategy string
(`round_robin`, `least_songs_first`, `random`, `original`, or any other),
and every requested count, the plan returned by `batchAllocation` has at
most as many entries as there are `null` slots in the input snapshot, and
no `{course, slot}` pair occurs twice within the plan; for `random` this
holds for every possible sequence of random choices (the oracle `g`). -/
theorem claim_c1_capacity_conservation (g : Nat → Nat) (data : Registry) (n : Nat)
    (strategy : String) (hnd : (keys data).Nodup) :
    (batchAllocation g data n strategy).length ≤ emptyCount data ∧
      (batchAllocation g data n strategy).Nodup :=
  ⟨by rw [batchAllocation_length hnd]; exact Nat.min_le_right _ _,
    batchAllocation_nodup hnd⟩

theorem claim_c1_witness :
    (keys scenarioRegistry).Nodup ∧
      ((batchAllocation (fun _ => 0) scenarioRegistry 9 "random").length ≤
          emptyCount scenarioRegistry ∧
        (batchAllocation (fun _ => 0) scenarioRegistry 9 "random").Nodup) :=
  ⟨by decide,
    claim_c1_capacity_conservation (fun _ => 0) scenarioRegistry 9 "random" (by decide)⟩

/-- C2: for every registry snapshot, strategy and requested count
`n ≥ 0`, `batchAllocation` returns a plan of exactly
`min n (emptyCount data)` entries (it is a total function — no error is
raised); in particular on a registry with zero empty slots and `n = 1`
the plan has length 0. -/
theorem claim_c2_plan_length (g : Nat → Nat) (data : Registry) (n : Nat)
    (strategy : String) (hnd : (keys data).Nodup) :
    (batchAllocation g data n strategy).length = min n (emptyCount data) :=
  batchAllocation_length hnd

theorem claim_c2_witness :
    (keys fullRegistry).Nodup ∧
      (batchAllocation (fun _ => 0) fullRegistry 1 "round_robin").length =
        min 1 (emptyCount fullRegistry) ∧
      (batchAllocation (fun _ => 0) fullRegistry 1 "round_robin").length = 0 :=
  ⟨by decide,
    claim_c2_plan_length (fun _ => 0) fullRegistry 1 "round_robin" (by decide),
    by decide⟩

/-- C3: if exactly `k` courses have at least one empty slot and `n ≥ k`,
the first `k` entries of a `round_robin` / `least_songs_first` plan name
those `k` courses, each exactly once (their course keys are a permutation
of `coursesWithEmpty data`), before any course appears a second time. -/
theorem claim_c3_seed_guarantee (g : Nat → Nat) (data : Registry) (n : Nat)
    (strategy : String) (hnd : (keys data).Nodup)
    (hstrat : strategy = "round_robin" ∨ strategy = "least_songs_first")
    (hge : (coursesWithEmpty data).length ≤ n) :
    List.Perm
      (((batchAllocation g data n strategy).take (coursesWithEmpty data).length).map
        Prod.fst)
      (coursesWithEmpty data) := by
  rcases hstrat with rfl | rfl
  · exact batchFairAllocation_seed_perm hnd hge
  · exact batchFairAllocation_seed_perm hnd hge

theorem claim_c3_witness :
    (keys scenarioRegistry).Nodup ∧
      (coursesWithEmpty scenarioRegistry).length ≤ 3 ∧
      List.Perm
        (((batchAllocation (fun _ => 0) scenarioRegistry 3 "round_robin").take
            (coursesWithEmpty scenarioRegistry).length).map Prod.fst)
        (coursesWithEmpty scenarioRegistry) :=
  ⟨by decide, by decide,
    claim_c3_seed_guarantee (fun _ => 0) scenarioRegistry 3 "round_robin" (by decide)
      (Or.inl rfl) (by decide)⟩

/-- C4: for every registry and every `n`, the `original`-mode plan equals
the canonical enumeration (courses in sorted key order, each course's
empty slots in ascending index order, each course exhausted before the
next course is touched) truncated to `n`, so its entries are strictly
increasing in the lexicographic `{course, slot}` order; and the spec's
scenario (A, B empty, C half-full, `n = 3`) yields
`[{A,0},{A,1},{B,0}]`. -/
theorem claim_c4_original_ordering :
    (∀ (g : Nat → Nat) (data : Registry) (n : Nat), (keys data).Nodup →
        batchAllocation g data n "original" = canonicalOriginalPlan data n ∧
          (batchAllocation g data n "original").Pairwise slotLt) ∧
      batchAllocation (fun _ => 0) scenarioRegistry 3 "original" =
        [("A", 0), ("A", 1), ("B", 0)] := by
  refine ⟨fun g data n hnd => ?_, by decide⟩
  have he : batchAllocation g data n "original" =
      batchOriginalAllocation data n (sortedKeys data) := rfl
  rw [he, batchOriginal_eq_canonical hnd]
  exact ⟨rfl, canonicalOriginalPlan_pairwise hnd⟩

theorem claim_c4_witness :
    (keys scenarioRegistry).Nodup ∧
      batchAllocation (fun _ => 0) scenarioRegistry 3 "original" =
        canonicalOriginalPlan scenarioRegistry 3 :=
  ⟨by decide,
    (claim_c4_original_ordering.1 (fun _ => 0) scenarioRegistry 3 (by decide)).1⟩

/-- C5: on the registry `{A: 0/2, B: 0/2, C: 1/2}` with `n = 3` and
strategy `round_robin`, `batchAllocation` returns exactly
`[{A,0},{B,0},{C,1}]`, whatever the random stream. -/
theorem claim_c5_round_robin_scenario (g : Nat → Nat) :
    batchAllocation g scenarioRegistry 3 "round_robin" =
      [("A", 0), ("B", 0), ("C", 1)] := by
  have hdet : batchAllocation g scenarioRegistry 3 "round_robin" =
      batchAllocation (fun _ => 0) scenarioRegistry 3 "round_robin" :=
    batchAllocation_deterministic (Or.inl rfl)
  rw [hdet]
  decide

/-- C6 (counterexample): on a registry with one fully-empty course, the
unrecognized strategy string `"bogus_strategy"` is not rejected:
`findAvailableCourseFair` returns a successful placement — the same one
the legacy `findAvailableCourse` default produces — and `batchAllocation`
returns a normal one-entry plan. -/
theorem claim_c6_counterexample :
    findAvailableCourseFair 0 regA "bogus_strategy" = some ("A", 0) ∧
      findAvailableCourseFair 0 regA "bogus_strategy" = findAvailableCourse regA ∧
      batchAllocation (fun _ => 0) regA 1 "bogus_strategy" = [("A", 0)] :=
  ⟨by decide, by decide, by decide⟩

/-- C6 (amended): an unrecognized strategy string is silently defaulted,
never rejected: `findAvailableCourseFair` falls back to the legacy
first-fit `findAvailableCourse`, `findAvailableCourseFairWithCopy` falls
back to the least-songs-first selector, and `batchAllocation` behaves
exactly as with `"least_songs_first"`. -/
theorem claim_c6_amended (r : Nat) (g : Nat → Nat) (data : Registry) (n : Nat)
    (strategy : String) (h1 : strategy ≠ "round_robin")
    (h2 : strategy ≠ "least_songs_first") (h3 : strategy ≠ "random")
    (h4 : strategy ≠ "original") :
    findAvailableCourseFair r data strategy = findAvailableCourse data ∧
      findAvailableCourseFairWithCopy r data strategy =
        findAvailableCourseLeastSongsFirstWithCopy data (sortedKeys data) ∧
      batchAllocation g data n strategy = batchAllocation g data n "least_songs_first" :=
  ⟨findAvailableCourseFair_fallback h1 h2 h3,
    findAvailableCourseFairWithCopy_fallback h1 h3,
    batchAllocation_fallback h1 h3 h4⟩

theorem claim_c6_witness :
    ("bogus_strategy" ≠ "round_robin") ∧
      (findAvailableCourseFair 0 regA "bogus_strategy" = findAvailableCourse regA ∧
        findAvailableCourseFairWithCopy 0 regA "bogus_strategy" =
          findAvailableCourseLeastSongsFirstWithCopy regA (sortedKeys regA) ∧
        batchAllocation (fun _ => 0) regA 1 "bogus_strategy" =
          batchAllocation (fun _ => 0) regA 1 "least_songs_first") :=
  ⟨by decide,
    claim_c6_amended 0 (fun _ => 0) regA 1 "bogus_strategy" (by decide) (by decide)
      (by decide) (by decide)⟩

/-- C7: `batchAllocation` computes on `deepCopy data` — whose value is the
input snapshot's value, the input itself never being written — and under
the deterministic strategies `round_robin`, `least_songs_first` and
`original` two invocations with identical inputs return identical plans:
the result does not depend on the random stream. -/
theorem claim_c7_idempotent (g g' : Nat → Nat) (data : Registry) (n : Nat)
    (strategy : String)
    (h : strategy = "round_robin" ∨ strategy = "least_songs_first" ∨
      strategy = "original") :
    batchAllocation g data n strategy = batchAllocation g' data n strategy ∧
      deepCopy data = data :=
  ⟨batchAllocation_deterministic h, rfl⟩

theorem claim_c7_witness :
    batchAllocation (fun _ => 0) scenarioRegistry 3 "least_songs_first" =
        batchAllocation (fun i => i + 7) scenarioRegistry 3 "least_songs_first" ∧
      deepCopy scenarioRegistry = scenarioRegistry :=
  claim_c7_idempotent (fun _ => 0) (fun i => i + 7) scenarioRegistry 3
    "least_songs_first" (Or.inr (Or.inl rfl))

/-- C8: the two single-call fair finders agree on every registry
snapshot: both return `none` exactly when no course has an empty slot,
and otherwise both return the lexicographically first course among those
with an empty slot attaining the minimum occupied count, paired with that
course's lowest-indexed empty slot. -/
theorem claim_c8_single_call_equiv (data : Registry) :
    findAvailableCourseRoundRobin data (sortedKeys data) =
        findAvailableCourseLeastSongsFirst data (sortedKeys data) ∧
      (findAvailableCourseLeastSongsFirst data (sortedKeys data) = none ↔
        ∀ c ∈ sortedKeys data, indexOfNull (getSongs data c) = none) ∧
      ∀ c s, findAvailableCourseLeastSongsFirst data (sortedKeys data) = some (c, s) →
        c ∈ sortedKeys data ∧ indexOfNull (getSongs data c) = some s ∧
          ∀ c' ∈ sortedKeys data, (indexOfNull (getSongs data c')).isSome →
            countNonNull (getSongs data c) ≤ countNonNull (getSongs data c') ∧
              (countNonNull (getSongs data c') = countNonNull (getSongs data c) →
                c ≤ c') := by
  refine ⟨findAvailableCourseRoundRobin_eq_least data _, leastSongsPick_eq_none_iff, ?_⟩
  intro c s h
  exact leastSongsPick_char (sortedKeys_sorted data) h

theorem claim_c8_witness :
    findAvailableCourseRoundRobin scenarioRegistry (sortedKeys scenarioRegistry) =
        findAvailableCourseLeastSongsFirst scenarioRegistry
          (sortedKeys scenarioRegistry) ∧
      findAvailableCourseLeastSongsFirst scenarioRegistry
          (sortedKeys scenarioRegistry) = some ("A", 0) :=
  ⟨(claim_c8_single_call_equiv scenarioRegistry).1, by decide⟩

/-- C9 (counterexample): on two fully-empty courses with the default
request of 10 items, round-robin batch allocation fills all four slots,
giving the perfectly even histogram `{A: 2, B: 2}` — yet the computed
fairness score is not 1, because the handler measures deviation from
`songCount / totalCourses = 5`, not from the mean of the counts. -/
theorem claim_c9_counterexample :
    courseCounts (allocationStats
        (batchAllocation (fun _ => 0) regAB 10 "round_robin")) = [2, 2] ∧
      fairnessScore [2, 2] 10 ≠ 1 := by
  refine ⟨by decide, ?_⟩
  rw [fairnessScore_two_two]
  norm_num

/-- C9 (amended): `fairnessScore = 1 / (1 + stdDev)` where the deviation
is taken around `songCount / totalCourses` (the requested count over the
number of courses used, not the mean of the counts); the score lies in
`(0, 1]` and equals 1 exactly when every per-course count equals
`songCount / totalCourses`; the recommendation loop picks the strategy
with the strictly highest score, ties going to the strategy evaluated
earlier in the fixed order; and a strategy with histogram `{5,5}` is
ranked above and recommended over one with `{9,1}` in either evaluation
order. -/
theorem claim_c9_amended (counts : List Nat) (songCount : Nat) (h : counts ≠ []) :
    (0 < fairnessScore counts songCount ∧ fairnessScore counts songCount ≤ 1 ∧
      (fairnessScore counts songCount = 1 ↔
        ∀ x ∈ counts, (x : ℝ) = (songCount : ℝ) / (counts.length : ℝ))) ∧
    (∀ (l₁ l₂ : List (String × ℝ)) (x : String × ℝ), 0 < x.2 →
      (∀ y ∈ l₁, y.2 < x.2) → (∀ y ∈ l₂, y.2 ≤ x.2) →
      recommendation (l₁ ++ x :: l₂) = some x.1) ∧
    fairnessScore [9, 1] 10 < fairnessScore [5, 5] 10 ∧
    recommendation [("round_robin", fairnessScore [5, 5] 10),
      ("least_songs_first", fairnessScore [9, 1] 10)] = some "round_robin" ∧
    recommendation [("round_robin", fairnessScore [9, 1] 10),
      ("least_songs_first", fairnessScore [5, 5] 10)] = some "least_songs_first" := by
  have h91 : fairnessScore [9, 1] 10 = 1 / 5 := fairnessScore_nine_one
  have h55 : fairnessScore [5, 5] 10 = 1 := fairnessScore_five_five
  refine ⟨⟨fairnessScore_pos _ _, fairnessScore_le_one _ _,
    fairnessScore_eq_one_iff _ h⟩, recommendation_first_max, ?_, ?_, ?_⟩
  · rw [h91, h55]; norm_num
  · have := recommendation_first_max []
      [("least_songs_first", fairnessScore [9, 1] 10)]
      ("round_robin", fairnessScore [5, 5] 10)
      (by rw [h55]; norm_num)
      (by intro y hy; cases hy)
      (by
        intro y hy
        rcases List.mem_cons.mp hy with rfl | hy2
        · show fairnessScore [9, 1] 10 ≤ fairnessScore [5, 5] 10
          rw [h91, h55]; norm_num
        · cases hy2)
    simpa using this
  · have := recommendation_first_max
      [("round_robin", fairnessScore [9, 1] 10)] []
      ("least_songs_first", fairnessScore [5, 5] 10)
      (by rw [h55]; norm_num)
      (by
        intro y hy
        rcases List.mem_cons.mp hy with rfl | hy2
        · show fairnessScore [9, 1] 10 < fairnessScore [5, 5] 10
          rw [h91, h55]; norm_num
        · cases hy2)
      (by intro y hy; cases hy)
    simpa using this

theorem claim_c9_witness :
    ([5, 5] : List Nat) ≠ [] ∧ 0 < fairnessScore [5, 5] 10 :=
  ⟨by decide, (claim_c9_amended [5, 5] 10 (by decide)).1.1⟩

/-- C10: batch allocation under `round_robin` and under
`least_songs_first` produce identical plans on every registry snapshot,
every requested count and every random stream: the seed rounds sort with
the same comparator and the fill-round selectors coincide. -/
theorem claim_c10_fair_strategies_equal (g : Nat → Nat) (data : Registry) (n : Nat) :
    batchAllocation g data n "round_robin" =
      batchAllocation g data n "least_songs_first" :=
  batchAllocation_rr_eq_lsf g data n

end CarMusic